import Mathlib

deriving instance DecidableEq for Except

/-!
Verification of the compound scan-point generator
(`scanpointgenerator/core/compoundgenerator.py`).

The `CompoundGenerator` class is shallowly embedded below.  The external
collaborators (`Generator`, `Point`, `Excluder`, `Mutator`) are not part of
the sources under review, so they are modelled from the spec's contracts:
a generator supplies per-axis position/bound sequences of length `num`
plus an `alternate_direction` flag, an excluder supplies a pointwise
keep-predicate over a pair of axes, and a mutator is a sequence transform.

Numeric conventions: Python (2) integers are modelled as `Nat`/`Int` with
floor division (`Int.fdiv`) and mathematical modulus (`Int.emod`), matching
Python's `//` and `%` on positive divisors.  The fractional "tile" factor
(the float `0.5` used for doubled masks) is modelled exactly as a rational
number: all tile arithmetic in the source is on half-integers, which both
binary floats and `ℚ` represent exactly.  Positions are modelled as `ℚ`.
-/

namespace SPG

/-- Modelled from the spec: the `Generator` leaf contract (§3/§6).  The
per-axis sequences are total functions indexed by `Nat`; `produce_points`
realizes indices `0..num-1` of them.  The class itself is not among the
sources under review. -/
structure GenSpec where
  axes : List String
  num : Nat
  points : String → Nat → ℚ
  lower : String → Nat → ℚ
  upper : String → Nat → ℚ
  alternate_direction : Bool

def dfltGen : GenSpec := ⟨[], 0, fun _ _ => 0, fun _ _ => 0, fun _ _ => 0, false⟩

/-- Modelled from the spec: the `Excluder` leaf contract (§3/§6):
`scannables` is the ordered axis pair and `create_mask` is pointwise, so it
is modelled by a keep-predicate applied with `List.zipWith`. -/
structure ExcluderSpec where
  scannables : String × String
  keep : ℚ → ℚ → Bool

/-- Modelled from the spec: a `Point` (§3): positions/lower/upper are
axis-keyed dictionaries (ordered association lists with unique keys, as
Python dicts), plus the ordered per-dimension index list. -/
structure Point where
  positions : List (String × ℚ)
  lower : List (String × ℚ)
  upper : List (String × ℚ)
  indexes : List Nat
  deriving DecidableEq, Repr

def emptyPoint : Point := ⟨[], [], [], []⟩

/-- Python dict assignment `d[k] = v`: replace the binding in place if the
key is present, otherwise append it. -/
def assocSet : List (String × ℚ) → String → ℚ → List (String × ℚ)
  | [], k, v => [(k, v)]
  | (k', v') :: t, k, v =>
      if k' = k then (k, v) :: t else (k', v') :: assocSet t k v

/-- `np.repeat xs k`: each element repeated `k` times consecutively. -/
def npRepeat : List α → Nat → List α
  | [], _ => []
  | x :: xs, k => List.replicate k x ++ npRepeat xs k

/-- `np.tile xs k`: the whole list concatenated `k` times. -/
def npTile (xs : List α) : Nat → List α
  | 0 => []
  | k + 1 => xs ++ npTile xs k

/-- `np.flatnonzero`: the positions at which a boolean list is true. -/
def flatnonzero (m : List Bool) : List Nat :=
  (List.range m.length).filter (fun i => m.getD i false)

/-- Elementwise `mask &= expanded` (`numpy` boolean `and`). -/
def andMasks (a b : List Bool) : List Bool := List.zipWith and a b

/-- A recorded mask: `{"repeat": r, "tile": t, "mask": mask}`.  `repeat` is
always integral in the source; `tile` can be the float `0.5` times an
integer, modelled exactly as a rational. -/
structure MaskRec where
  rep : Nat
  tile : ℚ
  mask : List Bool
  deriving DecidableEq, Repr

/-- A `Dimension` record as built during `prepare()` (before the final mask
synthesis).  Generators are tracked by their index in the compound's
generator list (the source keys them by object identity). -/
structure Dim where
  size : Nat
  axes : List String
  gens : List Nat
  masks : List MaskRec
  alternate : Bool
  deriving DecidableEq, Repr

def dfltDim : Dim := ⟨0, [], [], [], false⟩

/-- A finalized `Dimension`: valid indices plus the cross-dimension
`repeat`/`tile` factors (lines 202, 207-212 of the source). -/
structure RDim where
  indices : List Nat
  alternate : Bool
  gens : List Nat
  tile : Nat
  rep : Nat
  deriving DecidableEq, Repr

/-- Error strings of the source. -/
def adjMsg : String :=
  "Excluders must be defined on axes that are adjacent in generator order"
def altMsg : String :=
  "Generators tied by regions must have the same alternate_direction setting"
def assertMsg : String := "Mask lengths are not consistent"
def maskMsg : String := "Regions would exclude entire scan"
def rangeMsg : String := "Requested point is out of range"
def nestMsg : String :=
  "CompoundGenerators cannot be nested, nestits constituent parts instead"
def dupMsg : String := "Axis names cannot be duplicated"
def axisMsg : String := "axis is not owned by any generator"
def dimAxisMsg : String := "axis is not held by any dimension"

/-- `scale = 1; for g in gs: scale *= g.num` over generator indices. -/
def prodNums (gens : List GenSpec) (is : List Nat) : Nat :=
  (is.map (fun i => (gens.getD i dfltGen).num)).prod

/-- `self.axes_points[a]`: the realized position list of the (first)
generator owning axis `a`. -/
def axisPoints (gens : List GenSpec) (a : String) : List ℚ :=
  match gens.findIdx? (fun g => decide (a ∈ g.axes)) with
  | some i =>
      (List.range (gens.getD i dfltGen).num).map ((gens.getD i dfltGen).points a)
  | none => []

/-- Seed one `Dimension` per generator (lines 58-65). -/
def seedDims (gens : List GenSpec) : List Dim :=
  (List.range gens.length).map (fun i =>
    let g := gens.getD i dfltGen
    ⟨g.num, g.axes, [i], [], g.alternate_direction⟩)

/-- Canonicalization of lines 78-81: if the first axis's generator comes
later in nesting order, swap the generators and axes. -/
def canon (j1 j2 : Nat) (s1 s2 : String) : Nat × Nat × String × String :=
  if (j1 : Int) - j2 = 1 then (j2, j1, s2, s1) else (j1, j2, s1, s2)

/-- The dimension record obtained by merging the dimension at position
`q + 1` into the one at position `q` (lines 103-124): rescale the
pre-existing masks ("outer" masks' repeat times the incoming generators'
counts, "inner" masks' tile times the original dimension's counts),
concatenate axes/generators/masks, multiply the sizes. -/
def mergedDim (gens : List GenSpec) (dims : List Dim) (q : Nat) : Dim :=
  let d1 := dims.getD q dfltDim
  let d2 := dims.getD (q + 1) dfltDim
  ⟨d1.size * d2.size, d1.axes ++ d2.axes, d1.gens ++ d2.gens,
   d1.masks.map (fun m => { m with rep := m.rep * prodNums gens d2.gens }) ++
     d2.masks.map (fun m => { m with tile := m.tile * (prodNums gens d1.gens : ℚ) }),
   d1.alternate⟩

/-- Line 125: the merged record replaces the dimension at position `q` and
the one at `q + 1` is removed. -/
def mergeDims (gens : List GenSpec) (dims : List Dim) (q : Nat) : List Dim :=
  dims.take q ++ [mergedDim gens dims q] ++ dims.drop (q + 2)

/-- The loop of lines 168-178: walk the dimension's generators; before the
axis generators are seen multiply `tile`, after them multiply `repeat`. -/
def tileRepeatLoop (gens : List GenSpec) (a1 a2 : String) :
    List Nat → Bool → ℚ → Nat → ℚ × Nat
  | [], _, t, r => (t, r)
  | i :: rest, found, t, r =>
      let g := gens.getD i dfltGen
      if a1 ∈ g.axes ∨ a2 ∈ g.axes then
        tileRepeatLoop gens a1 a2 rest true t r
      else if found then tileRepeatLoop gens a1 a2 rest found t (r * g.num)
      else tileRepeatLoop gens a1 a2 rest found (t * (g.num : ℚ)) r

/-- The coordinate arrays of lines 135-155, expanded to the dimension's
resolution: doubled (forward plus reverse) when the dimension alternates,
and spread by the outer-product rule when the two axes come from different
generators. -/
def regionPoints (gens : List GenSpec) (alt : Bool) (i1 i2 : Nat)
    (a1 a2 : String) : List ℚ × List ℚ :=
  let pts1 := axisPoints gens a1
  let pts2 := axisPoints gens a2
  let n1 := (gens.getD i1 dfltGen).num
  let n2 := (gens.getD i2 dfltGen).num
  if i1 = i2 ∧ alt = true then
    (pts1 ++ pts1.reverse, pts2 ++ pts2.reverse)
  else if alt = true then
    (npRepeat (pts1 ++ pts1.reverse) n2, npTile (pts2 ++ pts2.reverse) n1)
  else if i1 ≠ i2 then
    (npRepeat pts1 n2, npTile pts2 n1)
  else (pts1, pts2)

/-- Lines 158-161: `create_mask` is invoked with the arguments in the
excluder's own declared axis order, not the canonicalized order. -/
def zipOrder (e : ExcluderSpec) (a1 : String) (x y : List ℚ) : List Bool :=
  if a1 = e.scannables.1 then List.zipWith e.keep x y
  else List.zipWith e.keep y x

/-- Build the boolean keep-mask of one excluder at the dimension's
resolution (lines 135-161).  `alt` is the dimension's alternate flag; the
`doubled_mask` flag of the source equals `alt` in every branch. -/
def regionMask (gens : List GenSpec) (alt : Bool) (i1 i2 : Nat)
    (a1 a2 : String) (e : ExcluderSpec) : List Bool :=
  zipOrder e a1 (regionPoints gens alt i1 i2 a1 a2).1
    (regionPoints gens alt i1 i2 a1 a2).2

/-- Append the excluder's mask record to the dimension at position `q`
(lines 135-180). -/
def addRegionMask (gens : List GenSpec) (dims : List Dim) (q : Nat)
    (i1 i2 : Nat) (a1 a2 : String) (e : ExcluderSpec) : List Dim :=
  let d := dims.getD q dfltDim
  let mask := regionMask gens d.alternate i1 i2 a1 a2 e
  let t0 : ℚ := if d.alternate then 1 / 2 else 1
  let tr := tileRepeatLoop gens a1 a2 d.gens false t0 1
  dims.set q { d with masks := d.masks ++ [⟨tr.2, tr.1, mask⟩] }

/-- The per-excluder body of the loop at lines 67-180, after the two
generators have been resolved and the nesting-adjacency check passed. -/
def processExcluderChecked (gens : List GenSpec) (dims : List Dim)
    (i1 i2 : Nat) (a1 a2 : String) (e : ExcluderSpec) :
    Except String (List Dim) :=
  match dims.findIdx? (fun d => decide (a1 ∈ d.axes)),
        dims.findIdx? (fun d => decide (a2 ∈ d.axes)) with
  | some p1, some p2 =>
      if (dims.getD p1 dfltDim).alternate ≠ (dims.getD p2 dfltDim).alternate then
        .error altMsg
      else if (p1 : Int) - p2 < -1 ∨ (p1 : Int) - p2 > 1 then .error adjMsg
      else
        let q := min p1 p2
        let dims2 := if p1 = p2 then dims else mergeDims gens dims q
        .ok (addRegionMask gens dims2 q i1 i2 a1 a2 e)
  | _, _ => .error dimAxisMsg

/-- One iteration of `for excluder in self.excluders` (lines 67-180). -/
def processExcluder (gens : List GenSpec) (dims : List Dim)
    (e : ExcluderSpec) : Except String (List Dim) :=
  match gens.findIdx? (fun g => decide (e.scannables.1 ∈ g.axes)),
        gens.findIdx? (fun g => decide (e.scannables.2 ∈ g.axes)) with
  | some j1, some j2 =>
      if (j1 : Int) - j2 < -1 ∨ (j1 : Int) - j2 > 1 then .error adjMsg
      else
        let c := canon j1 j2 e.scannables.1 e.scannables.2
        processExcluderChecked gens dims c.1 c.2.1 c.2.2.1 c.2.2.2 e
  | _, _ => .error axisMsg

/-- Expansion of one recorded mask to the full dimension length
(lines 194-199): repeat each element `rep` times; then, when `tile` is not
integral, tile by its integer part and append the half-length prefix,
otherwise just tile. -/
def expandMask (m : MaskRec) : List Bool :=
  let expanded := npRepeat m.mask m.rep
  if m.tile.den ≠ 1 then
    npTile expanded (⌊m.tile⌋).toNat ++ expanded.take (expanded.length / 2)
  else
    npTile expanded (⌊m.tile⌋).toNat

/-- The combined full-length mask of a dimension: the conjunction of its
recorded masks, each expanded (lines 190-200, without the assertion). -/
def combinedMask (d : Dim) : List Bool :=
  d.masks.foldl (fun acc m => andMasks acc (expandMask m))
    (List.replicate d.size true)

/-- The `for m in dim["masks"]` loop of lines 191-200: the assertion of
line 192 (compared against the current accumulated mask's length) is
modelled as a fatal error, then the expanded mask is ANDed in. -/
def applyMasks : List Bool → List MaskRec → Except String (List Bool)
  | acc, [] => .ok acc
  | acc, m :: rest =>
      if (m.mask.length : ℚ) * m.rep * m.tile ≠ (acc.length : ℚ) then
        .error assertMsg
      else applyMasks (andMasks acc (expandMask m)) rest

/-- Lines 190-204 for one dimension: fold the masks in, compute the valid
indices, and fail if none survive. -/
def finalizeDim (d : Dim) : Except String (List Nat × Dim) := do
  let mask ← applyMasks (List.replicate d.size true) d.masks
  let idxs := flatnonzero mask
  if idxs.length = 0 then .error maskMsg
  else .ok (idxs, d)

/-- Lines 214-223: the per-generator mixed-radix scaling factors within one
dimension, as `(generator index, tile, repeat)` triples.  The source's
float division `repeat /= g.num` is exact in every reachable state
(a zero-count generator empties the dimension, which raises earlier), so
it is modelled by `Nat` division. -/
def dimScaling (gens : List GenSpec) (dgens : List Nat) :
    List (Nat × Nat × Nat) :=
  (dgens.foldl (fun (st : Nat × Nat × List (Nat × Nat × Nat)) i =>
      let n := (gens.getD i dfltGen).num
      let rep := st.2.1 / n
      (st.1 * n, rep, st.2.2 ++ [(i, st.1, rep)]))
    (1, prodNums gens dgens, [])).2.2

/-- `self.generator_dim_scaling[g]` (a dict keyed by generator). -/
def lookupScale : List (Nat × Nat × Nat) → Nat → Nat × Nat
  | [], _ => (1, 1)
  | (i, t, r) :: rest, j => if i = j then (t, r) else lookupScale rest j

/-- The outcome of `prepare()`: the total count, the finalized dimensions
and the generator scaling map. -/
structure PrepResult where
  num : Nat
  dims : List RDim
  scaling : List (Nat × Nat × Nat)
  deriving DecidableEq, Repr

/-- Lines 207-212: attach the cross-dimension `tile`/`repeat` factors.
The source's float division `repeat /= l` is exact (the running value is
always a product of the remaining index counts); modelled by `Nat`
division. -/
def attachDimScaling (fdims : List (List Nat × Dim)) (total : Nat) :
    List RDim :=
  (fdims.foldl (fun (st : Nat × Nat × List RDim) d =>
      let l := d.1.length
      let rep := st.2.1 / l
      (st.1 * l, rep, st.2.2 ++ [⟨d.1, d.2.alternate, d.2.gens, st.1, rep⟩]))
    (1, total, [])).2.2

/-- `for excluder in self.excluders` (line 67): process the excluders in
the given order, threading the dimension list. -/
def processAll (gens : List GenSpec) : List Dim → List ExcluderSpec →
    Except String (List Dim)
  | dims, [] => .ok dims
  | dims, e :: rest => do
      let dims' ← processExcluder gens dims e
      processAll gens dims' rest

/-- `for dim in self.dimensions` (line 189): finalize each dimension in
order, stopping at the first failure. -/
def finalizeAll : List Dim → Except String (List (List Nat × Dim))
  | [] => .ok []
  | d :: rest => do
      let x ← finalizeDim d
      let xs ← finalizeAll rest
      .ok (x :: xs)

/-- The whole of `prepare()` (lines 48-223) as a pure function of the
generator and excluder lists. -/
def prepareCore (gens : List GenSpec) (excluders : List ExcluderSpec) :
    Except String PrepResult := do
  let dims1 ← processAll gens (seedDims gens) excluders
  let fdims ← finalizeAll dims1
  .ok ⟨(fdims.map (fun d => d.1.length)).prod,
       attachDimScaling fdims ((fdims.map (fun d => d.1.length)).prod),
       (fdims.map (fun d => dimScaling gens d.2.gens)).flatten⟩

/-- The mutable state of a `CompoundGenerator` object: the constructor
arguments plus the fields (re)computed by `prepare()`. -/
structure CGState where
  generators : List GenSpec
  excluders : List ExcluderSpec
  mutators : List (List Point → List Point)
  num : Nat
  pdims : List RDim
  scaling : List (Nat × Nat × Nat)

/-- A constructor argument: either a leaf generator or a nested
`CompoundGenerator` (whose contents are never inspected, since it is
rejected immediately). -/
inductive Constituent where
  | leaf (g : GenSpec)
  | compound (axes : List String)

/-- The `for generator in generators` loop of `__init__` (lines 34-41):
reject a nested compound generator, accumulate the axes in order. -/
def collectAxes : List Constituent → Except String (List String)
  | [] => .ok []
  | .compound _ :: _ => .error nestMsg
  | .leaf g :: rest => (collectAxes rest).map (fun t => g.axes ++ t)

/-- `__init__` (lines 17-46): reject a nested compound generator, collect
the axes, reject duplicated axis names (`len(axes) != len(set(axes))`). -/
def CompoundGenerator.init (cs : List Constituent)
    (exc : List ExcluderSpec) (muts : List (List Point → List Point)) :
    Except String CGState := do
  let axes ← collectAxes cs
  if axes.Nodup then
    .ok ⟨cs.filterMap (fun c => match c with
          | .leaf g => some g
          | .compound _ => none), exc, muts, 0, [], []⟩
  else .error dupMsg

/-- `prepare()` as a state transformer: recompute `num`, the dimension list
and the scaling map from the (unchanged) generators and excluders. -/
def CGState.prepare (st : CGState) : Except String CGState :=
  match prepareCore st.generators st.excluders with
  | .error e => .error e
  | .ok r => .ok { st with num := r.num, pdims := r.dims, scaling := r.scaling }

/-- A convenience constructor for the post-`prepare` state of a compound
with no mutators. -/
def stateOf (gens : List GenSpec) (r : PrepResult) : CGState :=
  ⟨gens, [], [], r.num, r.dims, r.scaling⟩

/-- The body of the `for dim in self.dimensions` loop of `get_point`
(lines 241-266), threading the cumulative counter `kc` and the point being
built. -/
def decodeDim (st : CGState) (n : Int) (acc : Nat × Point) (dim : RDim) :
    Nat × Point :=
  let kc := acc.1
  let p := acc.2
  let len := dim.indices.length
  let i0 : Int := n.fdiv dim.rep
  let iN : Nat := (i0 % (len : Int)).toNat
  let k0 : Nat := dim.indices.getD iN 0
  let iR : Nat :=
    if dim.alternate = true ∧ kc % 2 = 1 then len - iN - 1 else iN
  let kc' := kc * len + k0
  let k : Nat := dim.indices.getD iR 0
  let p := { p with indexes := p.indexes ++ [iR] }
  let p := dim.gens.foldl (fun p gi =>
      let g := st.generators.getD gi dfltGen
      let srep := (lookupScale st.scaling gi).2
      let j0 := k / srep
      let gr := j0 / g.num
      let j1 := j0 % g.num
      let j : Nat :=
        if dim.alternate = true ∧ dim.gens.head? ≠ some gi ∧ gr % 2 = 1 then
          g.num - j1 - 1
        else j1
      g.axes.foldl (fun p a =>
          { p with
            positions := assocSet p.positions a (g.points a j),
            lower := assocSet p.lower a (g.lower a j),
            upper := assocSet p.upper a (g.upper a j) }) p) p
  (kc', p)

/-- `get_point(n)` (lines 232-267).  `n` is an `Int` so that Python's
behaviour on negative arguments is captured: only `n >= self.num` raises. -/
def getPoint (st : CGState) (n : Int) : Except String Point :=
  if n ≥ (st.num : Int) then .error rangeMsg
  else .ok (st.pdims.foldl (decodeDim st n) (0, emptyPoint)).2

/-- `iterator()` (lines 225-230): the points for `n = 0..num-1`, threaded
through the mutators in order. -/
def CGState.iterator (st : CGState) : List Point :=
  st.mutators.foldl (fun pts m => m pts)
    ((List.range st.num).filterMap (fun n => (getPoint st (n : Int)).toOption))

/-- Is a constituent a nested `CompoundGenerator`? -/
def isCompound : Constituent → Bool
  | .leaf _ => false
  | .compound _ => true

/-- The axes contributed by a leaf constituent. -/
def leafAxes : Constituent → List String
  | .leaf g => g.axes
  | .compound _ => []

/-! Concrete generators and excluders used to instantiate the claims. -/

/-- A generator on axis `a` with points `[0, 1]`. -/
def exA : GenSpec :=
  ⟨["a"], 2, fun _ n => (n : ℚ), fun _ _ => 0, fun _ _ => 0, false⟩

/-- A generator on axis `b` with points `[10, 20, 30]`. -/
def exB : GenSpec :=
  ⟨["b"], 3, fun _ n => 10 * (n : ℚ) + 10, fun _ _ => 0, fun _ _ => 0, false⟩

/-- A second generator on axis `a`, to exhibit a duplicated axis name. -/
def exA2 : GenSpec :=
  ⟨["a"], 3, fun _ n => (n : ℚ), fun _ _ => 0, fun _ _ => 0, false⟩

/-- An alternating generator on axis `i` with points `[0, 1, 2]`. -/
def exI : GenSpec :=
  ⟨["i"], 3, fun _ n => (n : ℚ), fun _ _ => 0, fun _ _ => 0, true⟩

/-- The prepared state of a compound over `[exA]` alone (what
`prepare()` computes for it). -/
def stA : CGState := ⟨[exA], [], [], 2, [⟨[0, 1], false, [0], 1, 1⟩], [(0, 1, 1)]⟩

/-- An excluder tying axes `a` and `b`, rejecting the pair `(1, 20)`. -/
def exE : ExcluderSpec := ⟨("a", "b"), fun x y => !(x == 1 && y == 20)⟩

/-- An excluder tying axes `a` and `b` that rejects everything. -/
def exNone : ExcluderSpec := ⟨("a", "b"), fun _ _ => false⟩

/-- An alternating generator on axis `p` with points `[0, 1]`. -/
def exAo : GenSpec := ⟨["p"], 2, fun _ n => (n : ℚ), fun _ _ => 0, fun _ _ => 0, true⟩

/-- An alternating generator on axis `q` with points `[0, 1, 2]`. -/
def exAi : GenSpec := ⟨["q"], 3, fun _ n => (n : ℚ), fun _ _ => 0, fun _ _ => 0, true⟩

/-- The dimension produced over `[exA, exB]` by the all-rejecting excluder
`exNone`: its combined mask is false everywhere. -/
def dimNone : Dim :=
  ⟨6, ["a", "b"], [0, 1],
   [⟨1, 1, [false, false, false, false, false, false]⟩], false⟩

/-- An excluder tying the alternating axes `p` and `q`, rejecting `(1, 2)`. -/
def exE3 : ExcluderSpec := ⟨("p", "q"), fun x y => !(x == 1 && y == 2)⟩

/-- The merged dimension produced by processing `exE3` over
`[exAo, exAi]` (a doubled mask with the fractional tile `1/2`). -/
def c2d : Dim :=
  ⟨6, ["p", "q"], [0, 1],
   [⟨1, 1 / 2,
     [true, true, true, false, true, true, true, true, false, true, true, true]⟩],
   true⟩

/-- The per-dimension invariant maintained by the excluder loop: the size
is the product of the member generators' counts, the axes are exactly the
member generators' axes, member indices are in range, and every recorded
mask spans the dimension exactly (`len * repeat * tile = size`) with a
half-integer tile. -/
structure DimInv (gens : List GenSpec) (d : Dim) : Prop where
  size_eq : d.size = prodNums gens d.gens
  axes_iff : ∀ a : String, a ∈ d.axes ↔ ∃ i ∈ d.gens, a ∈ (gens.getD i dfltGen).axes
  gens_lt : ∀ i ∈ d.gens, i < gens.length
  masks_len : ∀ m ∈ d.masks, (m.mask.length : ℚ) * m.rep * m.tile = (d.size : ℚ)
  masks_half : ∀ m ∈ d.masks, ∃ j : ℕ, m.tile = (j : ℚ) ∨ m.tile = (j : ℚ) + 1 / 2

/-- The dimension-list invariant: every dimension satisfies `DimInv` and no
generator belongs to two dimensions. -/
def DimsInv (gens : List GenSpec) (dims : List Dim) : Prop :=
  (∀ d ∈ dims, DimInv gens d) ∧ ((dims.map Dim.gens).flatten).Nodup

/-! ## Theorems -/

theorem getD_range {i n : Nat} (h : i < n) : (List.range n).getD i 0 = i := by
  rw [List.getD_eq_getElem?_getD, List.getElem?_range h]
  rfl

theorem flatnonzero_replicate_true (n : Nat) :
    flatnonzero (List.replicate n true) = List.range n := by
  unfold flatnonzero
  rw [List.length_replicate]
  apply List.filter_eq_self.mpr
  intro a ha
  rw [List.getD_eq_getElem?_getD]
  have : a < n := List.mem_range.mp ha
  simp [List.getElem?_replicate, this]

theorem collectAxes_of_leaves (cs : List Constituent)
    (h : ∀ c ∈ cs, isCompound c = false) :
    collectAxes cs = .ok ((cs.map leafAxes).flatten) := by
  induction cs with
  | nil => rfl
  | cons c rest ih =>
      cases c with
      | leaf g =>
          simp only [collectAxes, ih (fun c hc => h c (List.mem_cons_of_mem _ hc))]
          simp [leafAxes, Except.map]
      | compound ax =>
          exact absurd (h _ (List.mem_cons_self _ _)) (by simp [isCompound])

theorem collectAxes_of_compound (cs : List Constituent)
    (h : ∃ c ∈ cs, isCompound c = true) :
    collectAxes cs = .error nestMsg := by
  induction cs with
  | nil => simp at h
  | cons c rest ih =>
      cases c with
      | compound ax => rfl
      | leaf g =>
          obtain ⟨c', hc', hcomp⟩ := h
          rcases List.mem_cons.mp hc' with h1 | h1
          · subst h1; simp [isCompound] at hcomp
          · simp [collectAxes, ih ⟨c', h1, hcomp⟩, Except.map]

theorem processExcluderChecked_error {gens : List GenSpec} {dims : List Dim}
    {i1 i2 : Nat} {a1 a2 : String} {e : ExcluderSpec} {s : String}
    (h : processExcluderChecked gens dims i1 i2 a1 a2 e = .error s) :
    s = altMsg ∨ s = adjMsg ∨ s = dimAxisMsg := by
  unfold processExcluderChecked at h
  split at h
  · split at h
    · simp at h; tauto
    · split at h
      · simp at h; tauto
      · simp at h
  · simp at h; tauto

theorem processExcluder_error {gens : List GenSpec} {dims : List Dim}
    {e : ExcluderSpec} {s : String}
    (h : processExcluder gens dims e = .error s) :
    s = adjMsg ∨ s = altMsg ∨ s = axisMsg ∨ s = dimAxisMsg := by
  unfold processExcluder at h
  split at h
  · split at h
    · simp at h; tauto
    · rcases processExcluderChecked_error h with h1 | h1 | h1 <;> tauto
  · simp at h; tauto

theorem processAll_error {gens : List GenSpec} :
    ∀ {excluders : List ExcluderSpec} {dims : List Dim} {s : String},
    processAll gens dims excluders = .error s →
    s = adjMsg ∨ s = altMsg ∨ s = axisMsg ∨ s = dimAxisMsg := by
  intro excluders
  induction excluders with
  | nil => intro dims s h; simp [processAll] at h
  | cons e rest ih =>
      intro dims s h
      unfold processAll at h
      cases hpe : processExcluder gens dims e with
      | error s' =>
          rw [hpe] at h
          simp only [Bind.bind, Except.bind] at h
          cases h
          exact processExcluder_error hpe
      | ok dims' =>
          rw [hpe] at h
          simp only [Bind.bind, Except.bind] at h
          exact ih h

theorem applyMasks_error :
    ∀ {ms : List MaskRec} {acc : List Bool} {s : String},
    applyMasks acc ms = .error s → s = assertMsg := by
  intro ms
  induction ms with
  | nil => intro acc s h; simp [applyMasks] at h
  | cons m rest ih =>
      intro acc s h
      unfold applyMasks at h
      split at h
      · cases h; rfl
      · exact ih h

theorem finalizeDim_error {d : Dim} {s : String}
    (h : finalizeDim d = .error s) : s = assertMsg ∨ s = maskMsg := by
  unfold finalizeDim at h
  cases ham : applyMasks (List.replicate d.size true) d.masks with
  | error s' =>
      rw [ham] at h
      simp only [Bind.bind, Except.bind] at h
      cases h
      exact Or.inl (applyMasks_error ham)
  | ok mask =>
      rw [ham] at h
      simp only [Bind.bind, Except.bind] at h
      split at h
      · cases h; exact Or.inr rfl
      · simp at h

theorem finalizeAll_error :
    ∀ {dims : List Dim} {s : String},
    finalizeAll dims = .error s → s = assertMsg ∨ s = maskMsg := by
  intro dims
  induction dims with
  | nil => intro s h; simp [finalizeAll] at h
  | cons d rest ih =>
      intro s h
      unfold finalizeAll at h
      cases hfd : finalizeDim d with
      | error s' =>
          rw [hfd] at h
          simp only [Bind.bind, Except.bind] at h
          cases h
          exact finalizeDim_error hfd
      | ok x =>
          rw [hfd] at h
          simp only [Bind.bind, Except.bind] at h
          cases hfa : finalizeAll rest with
          | error s' =>
              rw [hfa] at h
              simp only [Except.bind] at h
              cases h
              exact ih hfa
          | ok xs =>
              rw [hfa] at h
              simp only [Except.bind] at h
              simp at h

theorem prepareCore_error {gens : List GenSpec} {excluders : List ExcluderSpec}
    {s : String} (h : prepareCore gens excluders = .error s) :
    s = adjMsg ∨ s = altMsg ∨ s = axisMsg ∨ s = dimAxisMsg ∨
    s = assertMsg ∨ s = maskMsg := by
  unfold prepareCore at h
  cases hpa : processAll gens (seedDims gens) excluders with
  | error s' =>
      rw [hpa] at h
      simp only [Bind.bind, Except.bind] at h
      cases h
      rcases processAll_error hpa with h1 | h1 | h1 | h1 <;> tauto
  | ok dims1 =>
      rw [hpa] at h
      simp only [Bind.bind, Except.bind] at h
      cases hfa : finalizeAll dims1 with
      | error s' =>
          rw [hfa] at h
          simp only [Except.bind] at h
          cases h
          rcases finalizeAll_error hfa with h1 | h1 <;> tauto
      | ok fdims =>
          rw [hfa] at h
          simp only [Except.bind] at h
          simp at h

theorem lookup_assocSet_self (l : List (String × ℚ)) (k : String) (v : ℚ) :
    (assocSet l k v).lookup k = some v := by
  induction l with
  | nil => simp [assocSet, List.lookup]
  | cons hd tl ih =>
      obtain ⟨k', v'⟩ := hd
      by_cases h : k' = k
      · subst h; simp [assocSet, List.lookup]
      · have hb : (k == k') = false := beq_eq_false_iff_ne.mpr (Ne.symm h)
        simp [assocSet, h, List.lookup, hb, ih]

theorem lookup_assocSet_ne (l : List (String × ℚ)) (k k' : String) (v : ℚ)
    (h : k' ≠ k) : (assocSet l k v).lookup k' = l.lookup k' := by
  have hb : (k' == k) = false := beq_eq_false_iff_ne.mpr h
  induction l with
  | nil => simp [assocSet, List.lookup, hb]
  | cons hd tl ih =>
      obtain ⟨k'', v''⟩ := hd
      by_cases h2 : k'' = k
      · subst h2; simp [assocSet, List.lookup, hb]
      · simp only [assocSet, if_neg h2]
        by_cases h3 : k' = k''
        · subst h3; simp [List.lookup]
        · have hb3 : (k' == k'') = false := beq_eq_false_iff_ne.mpr h3
          simp [List.lookup, hb3, ih]

theorem lookup_foldl_assocSet_not_mem (f : String → ℚ) (axs : List String)
    (a : String) (ha : a ∉ axs) :
    ∀ l, (axs.foldl (fun l x => assocSet l x (f x)) l).lookup a = l.lookup a := by
  induction axs with
  | nil => intro l; rfl
  | cons x rest ih =>
      intro l
      have hax : a ≠ x := fun hc => ha (hc ▸ List.mem_cons_self x rest)
      have har : a ∉ rest := fun hc => ha (List.mem_cons_of_mem _ hc)
      rw [List.foldl_cons, ih har, lookup_assocSet_ne _ _ _ _ hax]

theorem lookup_foldl_assocSet (f : String → ℚ) (axs : List String)
    (a : String) (ha : a ∈ axs) :
    ∀ l, (axs.foldl (fun l x => assocSet l x (f x)) l).lookup a = some (f a) := by
  induction axs with
  | nil => cases ha
  | cons x rest ih =>
      intro l
      by_cases hr : a ∈ rest
      · rw [List.foldl_cons, ih hr]
      · have hax : a = x := by
          rcases List.mem_cons.mp ha with h | h
          · exact h
          · exact absurd h hr
        subst hax
        rw [List.foldl_cons, lookup_foldl_assocSet_not_mem f rest a hr,
          lookup_assocSet_self]

theorem axesFold_positions (g : GenSpec) (j : Nat) :
    ∀ (axs : List String) (p : Point),
    (axs.foldl (fun p a =>
      { p with
        positions := assocSet p.positions a (g.points a j),
        lower := assocSet p.lower a (g.lower a j),
        upper := assocSet p.upper a (g.upper a j) }) p).positions
      = axs.foldl (fun l a => assocSet l a (g.points a j)) p.positions := by
  intro axs
  induction axs with
  | nil => intro p; rfl
  | cons x rest ih => intro p; rw [List.foldl_cons, List.foldl_cons, ih]

theorem axesFold_indexes (g : GenSpec) (j : Nat) :
    ∀ (axs : List String) (p : Point),
    (axs.foldl (fun p a =>
      { p with
        positions := assocSet p.positions a (g.points a j),
        lower := assocSet p.lower a (g.lower a j),
        upper := assocSet p.upper a (g.upper a j) }) p).indexes = p.indexes := by
  intro axs
  induction axs with
  | nil => intro p; rfl
  | cons x rest ih => intro p; rw [List.foldl_cons, ih]

/-- `prepare()` on a single generator with no excluders: one dimension with
all indices valid and unit scaling factors. -/
theorem prepareCore_one (g : GenSpec) (h : 1 ≤ g.num) :
    prepareCore [g] [] =
      .ok ⟨g.num, [⟨List.range g.num, g.alternate_direction, [0], 1, 1⟩],
        [(0, 1, 1)]⟩ := by
  have h0 : g.num ≠ 0 := by omega
  have hdiv : g.num / g.num = 1 := Nat.div_self h
  simp [prepareCore, processAll, seedDims, finalizeAll, finalizeDim, applyMasks,
    flatnonzero_replicate_true, attachDimScaling, dimScaling, prodNums,
    Bind.bind, Except.bind, h0, hdiv]

/-- `prepare()` on two independent generators with no excluders: two
dimensions with all indices valid; the outer repeats by the inner count. -/
theorem prepareCore_two (g0 g1 : GenSpec) (h0 : 1 ≤ g0.num) (h1 : 1 ≤ g1.num) :
    prepareCore [g0, g1] [] =
      .ok ⟨g0.num * g1.num,
        [⟨List.range g0.num, g0.alternate_direction, [0], 1, g1.num⟩,
         ⟨List.range g1.num, g1.alternate_direction, [1], g0.num, 1⟩],
        [(0, 1, 1), (1, 1, 1)]⟩ := by
  have h00 : g0.num ≠ 0 := by omega
  have h10 : g1.num ≠ 0 := by omega
  have hd0 : g0.num / g0.num = 1 := Nat.div_self h0
  have hd1 : g1.num / g1.num = 1 := Nat.div_self h1
  have hdm : g0.num * g1.num / g0.num = g1.num := Nat.mul_div_cancel_left _ h0
  simp [prepareCore, processAll, seedDims, finalizeAll, finalizeDim, applyMasks,
    flatnonzero_replicate_true, attachDimScaling, dimScaling, prodNums,
    Bind.bind, Except.bind, h00, h10, hd0, hd1, hdm, List.range_succ]

/-- Decoding a point of a prepared single-generator compound: the `n`-th
point carries index `n` and the generator's `n`-th positions. -/
theorem getPoint_one (g : GenSpec) (n : Nat) (hn : n < g.num) :
    ∃ p,
      getPoint (stateOf [g]
        ⟨g.num, [⟨List.range g.num, g.alternate_direction, [0], 1, 1⟩],
          [(0, 1, 1)]⟩) (n : Int) = .ok p ∧
      p.indexes = [n] ∧
      ∀ a ∈ g.axes, p.positions.lookup a = some (g.points a n) := by
  have hbound : ¬ ((n : Int) ≥ ((g.num : Nat) : Int)) := by
    simp only [ge_iff_le, not_le]
    exact_mod_cast hn
  have hmod : ((n : Int) % ((g.num : Nat) : Int)) = (n : Int) := by
    rw [Int.emod_eq_of_lt (by positivity) (by exact_mod_cast hn)]
  have key :
      getPoint (stateOf [g]
        ⟨g.num, [⟨List.range g.num, g.alternate_direction, [0], 1, 1⟩],
          [(0, 1, 1)]⟩) (n : Int) =
      .ok ((List.foldl
        (decodeDim (stateOf [g]
          ⟨g.num, [⟨List.range g.num, g.alternate_direction, [0], 1, 1⟩],
            [(0, 1, 1)]⟩) (n : Int)) (0, emptyPoint)
        [⟨List.range g.num, g.alternate_direction, [0], 1, 1⟩]).2) := by
    unfold getPoint stateOf
    rw [if_neg hbound]
  refine ⟨_, key, ?_, ?_⟩
  · simp only [List.foldl_cons, List.foldl_nil, decodeDim, stateOf,
      List.length_range, Nat.cast_one, Int.fdiv_one, hmod,
      Int.toNat_natCast, lookupScale, List.getD_cons_zero, Nat.div_one,
      getD_range hn, Nat.mod_eq_of_lt hn, Nat.div_eq_of_lt hn]
    rw [axesFold_indexes]
    simp [emptyPoint]
  · simp only [List.foldl_cons, List.foldl_nil, decodeDim, stateOf,
      List.length_range, Nat.cast_one, Int.fdiv_one, hmod,
      Int.toNat_natCast, lookupScale, List.getD_cons_zero, Nat.div_one,
      getD_range hn, Nat.mod_eq_of_lt hn, Nat.div_eq_of_lt hn]
    intro a ha
    rw [axesFold_positions, lookup_foldl_assocSet _ _ _ ha]
    simp [getD_range hn, Nat.mod_eq_of_lt hn, Nat.div_eq_of_lt hn,
      List.getElem?_range hn]

theorem fdiv_natCast (m k : Nat) : (m : ℤ).fdiv (k : ℤ) = ((m / k : ℕ) : ℤ) := by
  rw [Int.fdiv_eq_ediv _ (by positivity)]
  exact (Int.natCast_div m k).symm

/-- Decoding a point of a prepared two-generator compound (no excluders):
outer selector `n / inner.num`, inner selector `n % inner.num`, reversed
when the inner dimension alternates and the outer raw index is odd. -/
theorem getPoint_two (g0 g1 : GenSpec) (h1 : 1 ≤ g1.num)
    (n : Nat) (hn : n < g0.num * g1.num) :
    ∃ p,
      getPoint (stateOf [g0, g1]
        ⟨g0.num * g1.num,
         [⟨List.range g0.num, g0.alternate_direction, [0], 1, g1.num⟩,
          ⟨List.range g1.num, g1.alternate_direction, [1], g0.num, 1⟩],
         [(0, 1, 1), (1, 1, 1)]⟩) (n : Int) = .ok p ∧
      p.indexes = [n / g1.num,
        if g1.alternate_direction = true ∧ (n / g1.num) % 2 = 1
        then g1.num - n % g1.num - 1 else n % g1.num] ∧
      ∀ a ∈ g1.axes, p.positions.lookup a =
        some (g1.points a
          (if g1.alternate_direction = true ∧ (n / g1.num) % 2 = 1
           then g1.num - n % g1.num - 1 else n % g1.num)) := by
  have h1p : 0 < g1.num := h1
  have hdivlt : n / g1.num < g0.num := by
    rw [Nat.div_lt_iff_lt_mul h1p]
    exact hn
  have hmodlt : n % g1.num < g1.num := Nat.mod_lt _ h1p
  have hbound : ¬ ((n : Int) ≥ ((g0.num * g1.num : Nat) : Int)) := by
    simp only [ge_iff_le, not_le]
    exact_mod_cast hn
  have key :
      getPoint (stateOf [g0, g1]
        ⟨g0.num * g1.num,
         [⟨List.range g0.num, g0.alternate_direction, [0], 1, g1.num⟩,
          ⟨List.range g1.num, g1.alternate_direction, [1], g0.num, 1⟩],
         [(0, 1, 1), (1, 1, 1)]⟩) (n : Int) =
      .ok ((List.foldl
        (decodeDim (stateOf [g0, g1]
          ⟨g0.num * g1.num,
           [⟨List.range g0.num, g0.alternate_direction, [0], 1, g1.num⟩,
            ⟨List.range g1.num, g1.alternate_direction, [1], g0.num, 1⟩],
           [(0, 1, 1), (1, 1, 1)]⟩) (n : Int)) (0, emptyPoint)
        [⟨List.range g0.num, g0.alternate_direction, [0], 1, g1.num⟩,
         ⟨List.range g1.num, g1.alternate_direction, [1], g0.num, 1⟩]).2) := by
    unfold getPoint stateOf
    rw [if_neg hbound]
  refine ⟨_, key, ?_, ?_⟩
  · by_cases hc : g1.alternate_direction = true ∧ (n / g1.num) % 2 = 1
    · simp only [List.foldl_cons, List.foldl_nil, decodeDim, stateOf,
        List.length_range, Nat.cast_one, Int.fdiv_one, fdiv_natCast,
        ← Int.ofNat_emod, Int.toNat_natCast, lookupScale,
        List.getD_cons_zero, List.getD_cons_succ, Nat.div_one,
        Nat.mod_eq_of_lt hdivlt, Nat.mod_eq_of_lt hmodlt,
        getD_range hdivlt, getD_range hmodlt]
      rw [axesFold_indexes, axesFold_indexes]
      simp [emptyPoint, hc]
    · simp only [List.foldl_cons, List.foldl_nil, decodeDim, stateOf,
        List.length_range, Nat.cast_one, Int.fdiv_one, fdiv_natCast,
        ← Int.ofNat_emod, Int.toNat_natCast, lookupScale,
        List.getD_cons_zero, List.getD_cons_succ, Nat.div_one,
        Nat.mod_eq_of_lt hdivlt, Nat.mod_eq_of_lt hmodlt,
        getD_range hdivlt, getD_range hmodlt]
      rw [axesFold_indexes, axesFold_indexes]
      simp [emptyPoint, hc]
  · by_cases hc : g1.alternate_direction = true ∧ (n / g1.num) % 2 = 1
    · have hrevlt : g1.num - n % g1.num - 1 < g1.num := by omega
      simp only [List.foldl_cons, List.foldl_nil, decodeDim, stateOf,
        List.length_range, Nat.cast_one, Int.fdiv_one, fdiv_natCast,
        ← Int.ofNat_emod, Int.toNat_natCast, lookupScale,
        List.getD_cons_zero, List.getD_cons_succ, Nat.div_one,
        Nat.mod_eq_of_lt hdivlt, Nat.mod_eq_of_lt hmodlt,
        getD_range hdivlt, getD_range hmodlt, hc, if_true, and_true,
        true_and, if_pos hc]
      intro a ha
      rw [axesFold_positions, lookup_foldl_assocSet _ _ _ ha]
      simp [hc.2, List.getElem?_range hrevlt, Nat.mod_eq_of_lt hrevlt]
    · simp only [List.foldl_cons, List.foldl_nil, decodeDim, stateOf,
        List.length_range, Nat.cast_one, Int.fdiv_one, fdiv_natCast,
        ← Int.ofNat_emod, Int.toNat_natCast, lookupScale,
        List.getD_cons_zero, List.getD_cons_succ, Nat.div_one,
        Nat.mod_eq_of_lt hdivlt, Nat.mod_eq_of_lt hmodlt,
        getD_range hdivlt, getD_range hmodlt, hc, if_neg hc]
      intro a ha
      rw [axesFold_positions, lookup_foldl_assocSet _ _ _ ha]
      simp [hc, List.getElem?_range hmodlt, Nat.mod_eq_of_lt hmodlt]

/-- Claim C1: with no excluders, no mutators and no alternation, the
prepared compound enumerates the Cartesian product in nesting order.  For
a single generator the total `num` is the generator's `num` and
`get_point(n)` carries the generator's `n`-th position on every axis; for
the concrete pair A = `[0, 1]`, B = `[10, 20, 30]` the total is 6 and
`get_point(n)` yields `(A[n / 3], B[n % 3])` for every `n < 6`. -/
theorem c1_cartesian_product :
    (∀ g : GenSpec, 1 ≤ g.num →
      prepareCore [g] [] =
        .ok ⟨g.num, [⟨List.range g.num, g.alternate_direction, [0], 1, 1⟩],
          [(0, 1, 1)]⟩ ∧
      ∀ n : Nat, n < g.num →
        ∃ p, getPoint (stateOf [g]
            ⟨g.num, [⟨List.range g.num, g.alternate_direction, [0], 1, 1⟩],
              [(0, 1, 1)]⟩) (n : Int) = .ok p ∧
          p.indexes = [n] ∧
          ∀ a ∈ g.axes, p.positions.lookup a = some (g.points a n)) ∧
    ((prepareCore [exA, exB] []).map PrepResult.num = .ok 6 ∧
      ∀ n : Nat, n < 6 →
        (prepareCore [exA, exB] []).bind (fun r =>
          (getPoint (stateOf [exA, exB] r) (n : Int)).map
            (fun p => (p.positions.lookup "a", p.positions.lookup "b"))) =
        .ok (some ((n / 3 : Nat) : ℚ), some (10 * ((n % 3 : Nat) : ℚ) + 10))) := by
  refine ⟨fun g h => ⟨prepareCore_one g h, fun n hn => getPoint_one g n hn⟩,
    by rfl, ?_⟩
  intro n hn
  interval_cases n <;> rfl

/-- Claim C1, witness. -/
theorem c1_cartesian_product_witness :
    prepareCore [exA] [] =
      .ok ⟨exA.num, [⟨List.range exA.num, exA.alternate_direction, [0], 1, 1⟩],
        [(0, 1, 1)]⟩ :=
  (c1_cartesian_product.1 exA (by decide)).1

/-- Claim C3: an alternating generator nested inside an outer generator of
count at least 2 (no excluders) traverses its second lap in exactly the
reverse order of its first lap: when the cumulative counter of outer raw
indices is odd, the dimension-local selector `i` becomes
`len(indices) - 1 - i`. -/
theorem c3_alternating_second_lap (g0 g1 : GenSpec) (h0 : 2 ≤ g0.num)
    (halt : g1.alternate_direction = true) (t : Nat) (ht : t < g1.num) :
    ∃ r, prepareCore [g0, g1] [] = .ok r ∧
    ∃ p q,
      getPoint (stateOf [g0, g1] r) ((g1.num + t : ℕ) : ℤ) = .ok p ∧
      getPoint (stateOf [g0, g1] r) ((g1.num - 1 - t : ℕ) : ℤ) = .ok q ∧
      p.indexes = [1, g1.num - 1 - t] ∧
      q.indexes = [0, g1.num - 1 - t] ∧
      (∀ a ∈ g1.axes,
        p.positions.lookup a = some (g1.points a (g1.num - 1 - t))) ∧
      (∀ a ∈ g1.axes, q.positions.lookup a = p.positions.lookup a) := by
  have h1 : 1 ≤ g1.num := by omega
  have h0' : 1 ≤ g0.num := by omega
  refine ⟨_, prepareCore_two g0 g1 h0' h1, ?_⟩
  have hnp : g1.num + t < g0.num * g1.num := by
    have h2 : 2 * g1.num ≤ g0.num * g1.num := Nat.mul_le_mul_right _ h0
    omega
  have hnq : g1.num - 1 - t < g0.num * g1.num := by
    have h2 : 2 * g1.num ≤ g0.num * g1.num := Nat.mul_le_mul_right _ h0
    omega
  obtain ⟨p, hp, hpidx, hppos⟩ := getPoint_two g0 g1 h1 (g1.num + t) hnp
  obtain ⟨q, hq, hqidx, hqpos⟩ := getPoint_two g0 g1 h1 (g1.num - 1 - t) hnq
  have hdivp : (g1.num + t) / g1.num = 1 := by
    rw [Nat.add_comm, Nat.add_div_right _ h1, Nat.div_eq_of_lt ht]
  have hmodp : (g1.num + t) % g1.num = t := by
    rw [Nat.add_mod_left, Nat.mod_eq_of_lt ht]
  have hdivq : (g1.num - 1 - t) / g1.num = 0 := Nat.div_eq_of_lt (by omega)
  have hmodq : (g1.num - 1 - t) % g1.num = g1.num - 1 - t :=
    Nat.mod_eq_of_lt (by omega)
  rw [hdivp, hmodp] at hpidx hppos
  rw [hdivq, hmodq] at hqidx hqpos
  simp only [halt, true_and, Nat.one_mod, if_true] at hpidx hppos
  simp only [halt, true_and, Nat.zero_mod] at hqidx hqpos
  have h01 : ¬ ((0 : ℕ) = 1) := by decide
  rw [if_neg h01] at hqidx hqpos
  have hsub : g1.num - t - 1 = g1.num - 1 - t := by omega
  try simp only [hsub] at hpidx hppos
  exact ⟨p, q, hp, hq, hpidx, hqidx, hppos,
    fun a ha => by rw [hqpos a ha, hppos a ha]⟩

/-- Claim C3, witness: outer `exA` (2 points), inner alternating `exI`
(3 points), second-lap offset 1. -/
theorem c3_alternating_second_lap_witness :
    2 ≤ exA.num ∧ exI.alternate_direction = true ∧ 1 < exI.num ∧
    ∃ r, prepareCore [exA, exI] [] = .ok r ∧
    ∃ p q,
      getPoint (stateOf [exA, exI] r) ((exI.num + 1 : ℕ) : ℤ) = .ok p ∧
      getPoint (stateOf [exA, exI] r) ((exI.num - 1 - 1 : ℕ) : ℤ) = .ok q ∧
      p.indexes = [1, exI.num - 1 - 1] ∧
      q.indexes = [0, exI.num - 1 - 1] ∧
      (∀ a ∈ exI.axes,
        p.positions.lookup a = some (exI.points a (exI.num - 1 - 1))) ∧
      (∀ a ∈ exI.axes, q.positions.lookup a = p.positions.lookup a) :=
  ⟨by decide, by decide, by decide,
    c3_alternating_second_lap exA exI (by decide) (by decide) 1 (by decide)⟩

theorem npRepeat_length (xs : List α) (k : Nat) :
    (npRepeat xs k).length = xs.length * k := by
  induction xs with
  | nil => simp [npRepeat]
  | cons x rest ih => simp [npRepeat, ih, Nat.succ_mul, Nat.add_comm]

theorem npTile_length (xs : List α) (k : Nat) :
    (npTile xs k).length = xs.length * k := by
  induction k with
  | zero => simp [npTile]
  | succ k ih => simp [npTile, ih, Nat.mul_succ, Nat.add_comm]

theorem andMasks_length (a b : List Bool) :
    (andMasks a b).length = min a.length b.length := by
  simp [andMasks]

theorem andMasks_getD (a b : List Bool) (p : Nat) (hpa : p < a.length)
    (hpb : p < b.length) :
    (andMasks a b).getD p false = (a.getD p false && b.getD p false) := by
  have hp : p < (andMasks a b).length := by
    rw [andMasks_length]; omega
  rw [List.getD_eq_getElem _ _ hp, List.getD_eq_getElem _ _ hpa,
    List.getD_eq_getElem _ _ hpb]
  simp [andMasks]

/-- An expanded mask has exactly the target length whenever the recorded
length equation holds and `tile` is a half-integer: in the fractional case
the equation forces `len * repeat` to be even, so the appended half-length
prefix reconstructs the length exactly, with no rounding. -/
theorem expandMask_length (m : MaskRec) (S : Nat)
    (hlen : (m.mask.length : ℚ) * m.rep * m.tile = (S : ℚ))
    (hhalf : ∃ j : ℕ, m.tile = (j : ℚ) ∨ m.tile = (j : ℚ) + 1 / 2) :
    (expandMask m).length = S := by
  obtain ⟨j, hj | hj⟩ := hhalf
  · have hden : m.tile.den = 1 := by rw [hj]; exact Rat.den_natCast j
    have hfloor : ⌊m.tile⌋ = (j : ℤ) := by rw [hj]; exact Int.floor_natCast j
    have hS : m.mask.length * m.rep * j = S := by
      have : ((m.mask.length * m.rep * j : ℕ) : ℚ) = ((S : ℕ) : ℚ) := by
        push_cast
        rw [← hj]
        exact hlen
      exact_mod_cast this
    unfold expandMask
    rw [if_neg (by simp [hden])]
    rw [npTile_length, npRepeat_length, hfloor]
    simpa using hS
  · have hne : m.tile.den ≠ 1 := by
      intro hden
      have hint : (m.tile.num : ℚ) = m.tile := by
        conv_rhs => rw [← Rat.num_div_den m.tile]
        rw [hden]
        simp
      have h2 : (2 : ℚ) * m.tile = ((2 * j + 1 : ℕ) : ℚ) := by
        rw [hj]; push_cast; ring
      rw [← hint] at h2
      have : (2 * m.tile.num : ℤ) = ((2 * j + 1 : ℕ) : ℤ) := by
        exact_mod_cast h2
      omega
    have hfloor : ⌊m.tile⌋ = (j : ℤ) := by
      rw [hj]
      rw [Int.floor_eq_iff]
      constructor
      · push_cast; norm_num
      · push_cast; norm_num
    have hS : 2 * S = 2 * (m.mask.length * m.rep * j) + m.mask.length * m.rep := by
      have h2 : ((2 * S : ℕ) : ℚ) =
          ((2 * (m.mask.length * m.rep * j) + m.mask.length * m.rep : ℕ) : ℚ) := by
        push_cast
        rw [← hlen, hj]
        ring
      exact_mod_cast h2
    unfold expandMask
    rw [if_pos (by simp [hne])]
    rw [List.length_append, npTile_length, npRepeat_length, List.length_take,
      npRepeat_length, hfloor]
    simp only [Int.toNat_natCast]
    omega

/-- Under the length invariant, the assertion of line 192 never fires: the
mask loop reduces to the plain fold that ANDs the expanded masks, and the
accumulated mask keeps the dimension's length. -/
theorem applyMasks_eq (S : Nat) :
    ∀ (ms : List MaskRec) (acc : List Bool), acc.length = S →
    (∀ m ∈ ms, (m.mask.length : ℚ) * m.rep * m.tile = (S : ℚ) ∧
      (expandMask m).length = S) →
    applyMasks acc ms =
      .ok (ms.foldl (fun acc m => andMasks acc (expandMask m)) acc) ∧
    (ms.foldl (fun acc m => andMasks acc (expandMask m)) acc).length = S := by
  intro ms
  induction ms with
  | nil => intro acc hacc _; exact ⟨rfl, hacc⟩
  | cons m rest ih =>
      intro acc hacc hm
      obtain ⟨hmlen, hmexp⟩ := hm m (List.mem_cons_self _ _)
      have hcond : ¬ ((m.mask.length : ℚ) * m.rep * m.tile ≠ (acc.length : ℚ)) := by
        rw [hacc, hmlen]
        simp
      have hacc' : (andMasks acc (expandMask m)).length = S := by
        rw [andMasks_length, hacc, hmexp]
        simp
      obtain ⟨h1, h2⟩ := ih (andMasks acc (expandMask m)) hacc'
        (fun m' hm' => hm m' (List.mem_cons_of_mem _ hm'))
      refine ⟨?_, by simpa using h2⟩
      unfold applyMasks
      rw [if_neg hcond]
      simpa using h1

theorem getD_replicate_true (S p : Nat) (hp : p < S) :
    (List.replicate S true).getD p false = true := by
  rw [List.getD_eq_getElem _ _ (by simpa using hp)]
  simp

/-- The combined mask is the pointwise conjunction of the expanded masks. -/
theorem foldl_andMasks_getD (S : Nat) :
    ∀ (ms : List MaskRec) (acc : List Bool), acc.length = S →
    (∀ m ∈ ms, (expandMask m).length = S) → ∀ p, p < S →
    (ms.foldl (fun acc m => andMasks acc (expandMask m)) acc).getD p false =
      (acc.getD p false && ms.all (fun m => (expandMask m).getD p false)) := by
  intro ms
  induction ms with
  | nil => intro acc hacc _ p hp; simp
  | cons m rest ih =>
      intro acc hacc hm p hp
      have hmexp : (expandMask m).length = S := hm m (List.mem_cons_self _ _)
      have hacc' : (andMasks acc (expandMask m)).length = S := by
        rw [andMasks_length, hacc, hmexp]; simp
      rw [List.foldl_cons,
        ih (andMasks acc (expandMask m)) hacc'
          (fun m' hm' => hm m' (List.mem_cons_of_mem _ hm')) p hp,
        andMasks_getD _ _ _ (by omega) (by omega)]
      simp [Bool.and_assoc]

/-- `finalizeDim` under the invariants: no assertion failure; the result is
exactly the valid-index list of the combined mask, or the mask error when
it is empty. -/
theorem finalizeDim_eq (d : Dim)
    (hinv : ∀ m ∈ d.masks, (m.mask.length : ℚ) * m.rep * m.tile = (d.size : ℚ))
    (hhalf : ∀ m ∈ d.masks, ∃ j : ℕ, m.tile = (j : ℚ) ∨ m.tile = (j : ℚ) + 1 / 2) :
    finalizeDim d =
      if (flatnonzero (combinedMask d)).length = 0 then .error maskMsg
      else .ok (flatnonzero (combinedMask d), d) := by
  have hboth : ∀ m ∈ d.masks, (m.mask.length : ℚ) * m.rep * m.tile = (d.size : ℚ) ∧
      (expandMask m).length = d.size :=
    fun m hm => ⟨hinv m hm, expandMask_length m d.size (hinv m hm) (hhalf m hm)⟩
  obtain ⟨h1, _⟩ := applyMasks_eq d.size d.masks (List.replicate d.size true)
    (by simp) hboth
  unfold finalizeDim combinedMask
  rw [h1]
  simp only [Bind.bind, Except.bind]

theorem findIdx?_some_lt {α} {l : List α} {p : α → Bool} {i : Nat}
    (h : l.findIdx? p = some i) : i < l.length := by
  rw [List.findIdx?_eq_some_iff_getElem] at h
  exact h.1

theorem findIdx?_some_prop {α} {l : List α} {p : α → Bool} {i : Nat} (dflt : α)
    (h : l.findIdx? p = some i) : p (l.getD i dflt) = true := by
  rw [List.findIdx?_eq_some_iff_getElem] at h
  obtain ⟨hlt, hp, _⟩ := h
  rw [List.getD_eq_getElem _ _ hlt]
  exact hp

/-- Axis names are globally unique: an axis determines its owning
generator's index. -/
theorem axes_owner_unique {gens : List GenSpec}
    (hax : ((gens.map GenSpec.axes).flatten).Nodup) {a : String} {i j : Nat}
    (hi : i < gens.length) (hj : j < gens.length)
    (ha : a ∈ (gens.getD i dfltGen).axes) (hb : a ∈ (gens.getD j dfltGen).axes) :
    i = j := by
  by_contra hne
  rw [List.nodup_flatten] at hax
  obtain ⟨-, hpw⟩ := hax
  rw [List.pairwise_iff_getElem] at hpw
  rw [List.getD_eq_getElem _ _ hi] at ha
  rw [List.getD_eq_getElem _ _ hj] at hb
  rcases Nat.lt_or_ge i j with hij | hij
  · have hd := hpw i j (by simpa using hi) (by simpa using hj) hij
    rw [List.getElem_map, List.getElem_map] at hd
    exact hd ha hb
  · have hij' : j < i := by omega
    have hd := hpw j i (by simpa using hj) (by simpa using hi) hij'
    rw [List.getElem_map, List.getElem_map] at hd
    exact hd hb ha

theorem list_prod_filter_split {α β} [CommMonoid β] (f : α → β) (p : α → Bool)
    (l : List α) :
    (l.map f).prod =
      ((l.filter p).map f).prod * ((l.filter (fun x => !(p x))).map f).prod := by
  induction l with
  | nil => simp
  | cons x rest ih =>
      by_cases hp : p x <;>
        simp [List.filter_cons, hp, ih, mul_assoc, mul_left_comm]

theorem filter_single_prod {β} [CommMonoid β] (f : Nat → β) {l : List Nat}
    {i : Nat} (p : Nat → Bool) (hnd : l.Nodup) (hi : i ∈ l)
    (hiff : ∀ x ∈ l, p x = true ↔ x = i) :
    ((l.filter p).map f).prod = f i := by
  induction l with
  | nil => cases hi
  | cons y rest ih =>
      rw [List.nodup_cons] at hnd
      by_cases hy : p y
      · have hyi : y = i := (hiff y (List.mem_cons_self _ _)).mp hy
        subst hyi
        have hrest : rest.filter p = [] := by
          rw [List.filter_eq_nil_iff]
          intro x hx hpx
          exact hnd.1 (((hiff x (List.mem_cons_of_mem _ hx)).mp hpx) ▸ hx)
        rw [List.filter_cons_of_pos hy, hrest]
        simp
      · have hi' : i ∈ rest := by
          rcases List.mem_cons.mp hi with h | h
          · exact absurd ((hiff y (List.mem_cons_self _ _)).mpr h.symm) hy
          · exact h
        rw [List.filter_cons_of_neg hy]
        exact ih hnd.2 hi' (fun x hx => hiff x (List.mem_cons_of_mem _ hx))

theorem filter_pair_prod {β} [CommMonoid β] (f : Nat → β) {l : List Nat}
    {i1 i2 : Nat} (p : Nat → Bool) (hnd : l.Nodup) (h1 : i1 ∈ l) (h2 : i2 ∈ l)
    (hne : i1 ≠ i2) (hiff : ∀ x ∈ l, p x = true ↔ (x = i1 ∨ x = i2)) :
    ((l.filter p).map f).prod = f i1 * f i2 := by
  induction l with
  | nil => cases h1
  | cons y rest ih =>
      rw [List.nodup_cons] at hnd
      by_cases hy : p y
      · rcases (hiff y (List.mem_cons_self _ _)).mp hy with hy1 | hy2
        · subst hy1
          have hi2 : i2 ∈ rest := by
            rcases List.mem_cons.mp h2 with h | h
            · exact absurd h.symm hne
            · exact h
          rw [List.filter_cons_of_pos hy, List.map_cons, List.prod_cons]
          rw [filter_single_prod f p hnd.2 hi2]
          intro x hx
          rw [hiff x (List.mem_cons_of_mem _ hx)]
          constructor
          · rintro (h | h)
            · exact absurd (h ▸ hx) hnd.1
            · exact h
          · exact fun h => Or.inr h
        · subst hy2
          have hi1 : i1 ∈ rest := by
            rcases List.mem_cons.mp h1 with h | h
            · exact absurd h hne
            · exact h
          rw [List.filter_cons_of_pos hy, List.map_cons, List.prod_cons]
          rw [filter_single_prod f p hnd.2 hi1, mul_comm]
          intro x hx
          rw [hiff x (List.mem_cons_of_mem _ hx)]
          constructor
          · rintro (h | h)
            · exact h
            · exact absurd (h ▸ hx) hnd.1
          · exact fun h => Or.inl h
      · have hi1 : i1 ∈ rest := by
          rcases List.mem_cons.mp h1 with h | h
          · exact absurd ((hiff y (List.mem_cons_self _ _)).mpr (Or.inl h.symm)) hy
          · exact h
        have hi2 : i2 ∈ rest := by
          rcases List.mem_cons.mp h2 with h | h
          · exact absurd ((hiff y (List.mem_cons_self _ _)).mpr (Or.inr h.symm)) hy
          · exact h
        rw [List.filter_cons_of_neg hy]
        exact ih hnd.2 hi1 hi2 (fun x hx => hiff x (List.mem_cons_of_mem _ hx))

/-- Half-integers are closed under multiplication by a natural number. -/
theorem half_mul_nat (x : ℚ) (k : ℕ)
    (h : ∃ j : ℕ, x = (j : ℚ) ∨ x = (j : ℚ) + 1 / 2) :
    ∃ j : ℕ, x * k = (j : ℚ) ∨ x * k = (j : ℚ) + 1 / 2 := by
  obtain ⟨j, hj | hj⟩ := h
  · exact ⟨j * k, Or.inl (by rw [hj]; push_cast; ring)⟩
  · rcases Nat.even_or_odd k with ⟨m, hm⟩ | ⟨m, hm⟩
    · exact ⟨j * k + m, Or.inl (by rw [hj, hm]; push_cast; ring)⟩
    · exact ⟨j * k + m, Or.inr (by rw [hj, hm]; push_cast; ring)⟩

/-- The tile/repeat loop multiplies, in total, by the counts of the
dimension generators owning neither axis. -/
theorem tileRepeatLoop_prod (gens : List GenSpec) (a1 a2 : String) :
    ∀ (l : List Nat) (found : Bool) (t : ℚ) (r : Nat),
    (tileRepeatLoop gens a1 a2 l found t r).1 *
      ((tileRepeatLoop gens a1 a2 l found t r).2 : ℚ) =
    t * r * ((l.filter (fun i =>
        !(decide (a1 ∈ (gens.getD i dfltGen).axes ∨
          a2 ∈ (gens.getD i dfltGen).axes)))).map
        (fun i => ((gens.getD i dfltGen).num : ℚ))).prod := by
  intro l
  induction l with
  | nil => intro found t r; simp [tileRepeatLoop]
  | cons i rest ih =>
      intro found t r
      have hstep : tileRepeatLoop gens a1 a2 (i :: rest) found t r =
          if a1 ∈ (gens.getD i dfltGen).axes ∨ a2 ∈ (gens.getD i dfltGen).axes then
            tileRepeatLoop gens a1 a2 rest true t r
          else if found then
            tileRepeatLoop gens a1 a2 rest found t (r * (gens.getD i dfltGen).num)
          else
            tileRepeatLoop gens a1 a2 rest found (t * ((gens.getD i dfltGen).num : ℚ)) r := rfl
      by_cases hx : a1 ∈ (gens.getD i dfltGen).axes ∨ a2 ∈ (gens.getD i dfltGen).axes
      · have hfc : List.filter (fun i =>
            !decide (a1 ∈ (gens.getD i dfltGen).axes ∨
              a2 ∈ (gens.getD i dfltGen).axes)) (i :: rest) =
            List.filter (fun i =>
              !decide (a1 ∈ (gens.getD i dfltGen).axes ∨
                a2 ∈ (gens.getD i dfltGen).axes)) rest := by
          rw [List.filter_cons, if_neg (by rw [decide_eq_true hx]; decide)]
        rw [hstep, if_pos hx, hfc, ih]
      · have hfc : List.filter (fun i =>
            !decide (a1 ∈ (gens.getD i dfltGen).axes ∨
              a2 ∈ (gens.getD i dfltGen).axes)) (i :: rest) =
            i :: List.filter (fun i =>
              !decide (a1 ∈ (gens.getD i dfltGen).axes ∨
                a2 ∈ (gens.getD i dfltGen).axes)) rest := by
          rw [List.filter_cons, if_pos (by rw [decide_eq_false hx]; rfl)]
        rw [hstep, if_neg hx, hfc, List.map_cons, List.prod_cons]
        cases found
        · rw [if_neg (by simp), ih]
          ring
        · rw [if_pos rfl, ih]
          push_cast
          ring

/-- The tile accumulated by the loop is the initial tile times a natural
number. -/
theorem tileRepeatLoop_tile (gens : List GenSpec) (a1 a2 : String) :
    ∀ (l : List Nat) (found : Bool) (t : ℚ) (r : Nat),
    ∃ P : ℕ, (tileRepeatLoop gens a1 a2 l found t r).1 = t * P := by
  intro l
  induction l with
  | nil => intro found t r; exact ⟨1, by simp [tileRepeatLoop]⟩
  | cons i rest ih =>
      intro found t r
      have hstep : tileRepeatLoop gens a1 a2 (i :: rest) found t r =
          if a1 ∈ (gens.getD i dfltGen).axes ∨ a2 ∈ (gens.getD i dfltGen).axes then
            tileRepeatLoop gens a1 a2 rest true t r
          else if found then
            tileRepeatLoop gens a1 a2 rest found t (r * (gens.getD i dfltGen).num)
          else
            tileRepeatLoop gens a1 a2 rest found (t * ((gens.getD i dfltGen).num : ℚ)) r := rfl
      by_cases hx : a1 ∈ (gens.getD i dfltGen).axes ∨ a2 ∈ (gens.getD i dfltGen).axes
      · rw [hstep, if_pos hx]
        exact ih true t r
      · rw [hstep, if_neg hx]
        cases found
        · rw [if_neg (by simp)]
          obtain ⟨P, hP⟩ := ih false (t * ((gens.getD i dfltGen).num : ℚ)) r
          exact ⟨(gens.getD i dfltGen).num * P, by rw [hP]; push_cast; ring⟩
        · rw [if_pos rfl]
          exact ih true t _

theorem getD_append_length {α} (l1 : List α) (x : α) (l2 : List α) (dflt : α) :
    (l1 ++ x :: l2).getD l1.length dflt = x := by
  induction l1 with
  | nil => rfl
  | cons y rest ih => simpa using ih

theorem list_decomp {α} (l : List α) (p : Nat) (dflt : α) (h : p + 1 < l.length) :
    l = l.take p ++ l.getD p dflt :: l.getD (p + 1) dflt :: l.drop (p + 2) := by
  have h0 : p < l.length := by omega
  conv_lhs => rw [← List.take_append_drop p l]
  congr 1
  rw [List.drop_eq_getElem_cons h0, List.drop_eq_getElem_cons h,
    List.getD_eq_getElem _ _ h0, List.getD_eq_getElem _ _ h]

theorem mergeDims_getD (gens : List GenSpec) (dims : List Dim) (q : Nat)
    (dflt : Dim) (hq : q < dims.length) :
    (mergeDims gens dims q).getD q dflt = mergedDim gens dims q := by
  unfold mergeDims
  have hlen : (dims.take q).length = q := by
    rw [List.length_take]; omega
  rw [List.append_assoc, List.singleton_append]
  have hkey := getD_append_length (dims.take q) (mergedDim gens dims q)
    (dims.drop (q + 2)) dflt
  rw [hlen] at hkey
  exact hkey

theorem mergeDims_length (gens : List GenSpec) (dims : List Dim) (q : Nat)
    (hq : q + 1 < dims.length) :
    (mergeDims gens dims q).length = dims.length - 1 := by
  unfold mergeDims
  simp only [List.length_append, List.length_take, List.length_singleton,
    List.length_drop]
  omega

theorem mem_mergeDims {gens : List GenSpec} {dims : List Dim} {q : Nat} {d : Dim}
    (h : d ∈ mergeDims gens dims q) :
    d = mergedDim gens dims q ∨ d ∈ dims := by
  unfold mergeDims at h
  rcases List.mem_append.mp h with h | h
  · rcases List.mem_append.mp h with h | h
    · exact Or.inr (List.mem_of_mem_take h)
    · left; simpa using h
  · exact Or.inr (List.mem_of_mem_drop h)

theorem mergeDims_flatten (gens : List GenSpec) (dims : List Dim) (q : Nat)
    (hq : q + 1 < dims.length) :
    (((mergeDims gens dims q).map Dim.gens).flatten) =
      ((dims.map Dim.gens).flatten) := by
  conv_rhs => rw [list_decomp dims q dfltDim hq]
  unfold mergeDims mergedDim
  simp [List.map_append, List.flatten_append]

theorem map_singleton_flatten {α} (l : List α) :
    ((l.map (fun x => [x])).flatten) = l := by
  induction l with
  | nil => rfl
  | cons x rest ih => simp [ih]

theorem prodNums_append (gens : List GenSpec) (l1 l2 : List Nat) :
    prodNums gens (l1 ++ l2) = prodNums gens l1 * prodNums gens l2 := by
  unfold prodNums
  rw [List.map_append, List.prod_append]

theorem prodNums_cast (gens : List GenSpec) (l : List Nat) :
    ((prodNums gens l : ℕ) : ℚ) =
      (l.map (fun i => ((gens.getD i dfltGen).num : ℚ))).prod := by
  unfold prodNums
  rw [Nat.cast_list_prod, List.map_map]
  rfl

theorem axisPoints_length {gens : List GenSpec} {a : String} {i : Nat}
    (hg : gens.findIdx? (fun g => decide (a ∈ g.axes)) = some i) :
    (axisPoints gens a).length = (gens.getD i dfltGen).num := by
  unfold axisPoints
  rw [hg]
  simp

theorem zipOrder_length (e : ExcluderSpec) (a1 : String) (x y : List ℚ) :
    (zipOrder e a1 x y).length = min x.length y.length := by
  unfold zipOrder
  split <;> simp [Nat.min_comm]

/-- The length of a region's keep-mask: doubled when the dimension
alternates; the product of both generators' counts when the two axes come
from different generators. -/
theorem regionMask_length (gens : List GenSpec) (alt : Bool) (i1 i2 : Nat)
    (a1 a2 : String) (e : ExcluderSpec)
    (hg1 : gens.findIdx? (fun g => decide (a1 ∈ g.axes)) = some i1)
    (hg2 : gens.findIdx? (fun g => decide (a2 ∈ g.axes)) = some i2) :
    (regionMask gens alt i1 i2 a1 a2 e).length =
      (if alt then 2 else 1) *
        (if i1 = i2 then (gens.getD i1 dfltGen).num
         else (gens.getD i1 dfltGen).num * (gens.getD i2 dfltGen).num) := by
  have h1 := axisPoints_length hg1
  have h2 := axisPoints_length hg2
  unfold regionMask
  rw [zipOrder_length]
  by_cases hii : i1 = i2
  · cases alt
    · rw [show regionPoints gens false i1 i2 a1 a2 =
          (axisPoints gens a1, axisPoints gens a2) from by
        unfold regionPoints
        rw [if_neg (by simp), if_neg (by simp), if_neg (fun h => h hii)]]
      simp only [h1, h2, hii]
      simp
    · rw [show regionPoints gens true i1 i2 a1 a2 =
          (axisPoints gens a1 ++ (axisPoints gens a1).reverse,
           axisPoints gens a2 ++ (axisPoints gens a2).reverse) from by
        unfold regionPoints
        rw [if_pos ⟨hii, rfl⟩]]
      simp only [List.length_append, List.length_reverse, h1, h2, hii]
      simp [Nat.two_mul]
  · cases alt
    · rw [show regionPoints gens false i1 i2 a1 a2 =
          (npRepeat (axisPoints gens a1) (gens.getD i2 dfltGen).num,
           npTile (axisPoints gens a2) (gens.getD i1 dfltGen).num) from by
        unfold regionPoints
        rw [if_neg (by simp), if_neg (by simp), if_pos hii]]
      simp only [npRepeat_length, npTile_length, h1, h2]
      rw [if_neg hii, if_neg (by simp)]
      rw [Nat.mul_comm (gens.getD i2 dfltGen).num]
      simp
    · rw [show regionPoints gens true i1 i2 a1 a2 =
          (npRepeat (axisPoints gens a1 ++ (axisPoints gens a1).reverse)
            (gens.getD i2 dfltGen).num,
           npTile (axisPoints gens a2 ++ (axisPoints gens a2).reverse)
            (gens.getD i1 dfltGen).num) from by
        unfold regionPoints
        rw [if_neg (by simp [hii]), if_pos rfl]]
      simp only [npRepeat_length, npTile_length, List.length_append,
        List.length_reverse, h1, h2]
      rw [if_neg hii, if_pos trivial]
      have hcomm : ((gens.getD i2 dfltGen).num + (gens.getD i2 dfltGen).num) *
          (gens.getD i1 dfltGen).num =
          ((gens.getD i1 dfltGen).num + (gens.getD i1 dfltGen).num) *
          (gens.getD i2 dfltGen).num := by ring
      rw [hcomm, Nat.min_self]
      ring

theorem map_gens_set (dims : List Dim) (q : Nat) (newD : Dim)
    (h : newD.gens = (dims.getD q dfltDim).gens) :
    (dims.set q newD).map Dim.gens = dims.map Dim.gens := by
  induction dims generalizing q with
  | nil => rfl
  | cons d rest ih =>
      cases q with
      | zero =>
          simp only [List.getD_cons_zero] at h
          simp [List.set, h]
      | succ q =>
          simp only [List.getD_cons_succ] at h
          simp [List.set, ih q h]

theorem getD_mem {α} {l : List α} {q : Nat} (dflt : α) (h : q < l.length) :
    l.getD q dflt ∈ l := by
  rw [List.getD_eq_getElem _ _ h]
  exact List.getElem_mem _

/-- Merging two adjacent dimensions preserves the invariant: the rescaled
masks still span the merged size exactly. -/
theorem mergeDims_inv {gens : List GenSpec} {dims : List Dim} (q : Nat)
    (hq : q + 1 < dims.length) (hinv : DimsInv gens dims) :
    DimsInv gens (mergeDims gens dims q) := by
  obtain ⟨hdim, hnd⟩ := hinv
  have hq0 : q < dims.length := by omega
  have hd1 := hdim _ (getD_mem dfltDim hq0)
  have hd2 := hdim _ (getD_mem dfltDim hq)
  constructor
  · intro d hd
    rcases mem_mergeDims hd with rfl | hd
    · refine ⟨?_, ?_, ?_, ?_, ?_⟩
      · show (mergedDim gens dims q).size = prodNums gens (mergedDim gens dims q).gens
        unfold mergedDim
        dsimp only
        rw [prodNums_append, ← hd1.size_eq, ← hd2.size_eq]
      · intro a
        unfold mergedDim
        dsimp only
        rw [List.mem_append]
        constructor
        · rintro (h | h)
          · obtain ⟨i, hi, ha⟩ := (hd1.axes_iff a).mp h
            exact ⟨i, List.mem_append.mpr (Or.inl hi), ha⟩
          · obtain ⟨i, hi, ha⟩ := (hd2.axes_iff a).mp h
            exact ⟨i, List.mem_append.mpr (Or.inr hi), ha⟩
        · rintro ⟨i, hi, ha⟩
          rcases List.mem_append.mp hi with h | h
          · exact Or.inl ((hd1.axes_iff a).mpr ⟨i, h, ha⟩)
          · exact Or.inr ((hd2.axes_iff a).mpr ⟨i, h, ha⟩)
      · intro i hi
        unfold mergedDim at hi
        dsimp only at hi
        rcases List.mem_append.mp hi with h | h
        · exact hd1.gens_lt i h
        · exact hd2.gens_lt i h
      · intro m hm
        unfold mergedDim at hm ⊢
        dsimp only at hm ⊢
        have hs1 : ((prodNums gens (dims.getD q dfltDim).gens : ℕ) : ℚ) =
            ((dims.getD q dfltDim).size : ℚ) :=
          Nat.cast_inj.mpr hd1.size_eq.symm
        have hs2 : ((prodNums gens (dims.getD (q + 1) dfltDim).gens : ℕ) : ℚ) =
            ((dims.getD (q + 1) dfltDim).size : ℚ) :=
          Nat.cast_inj.mpr hd2.size_eq.symm
        rcases List.mem_append.mp hm with hm | hm
        · rw [List.mem_map] at hm
          obtain ⟨m0, hm0, rfl⟩ := hm
          dsimp only
          have hA := hd1.masks_len m0 hm0
          push_cast
          calc (m0.mask.length : ℚ) *
                (↑m0.rep * ↑(prodNums gens (dims.getD (q + 1) dfltDim).gens)) *
                m0.tile
              = ((m0.mask.length : ℚ) * ↑m0.rep * m0.tile) *
                ↑(prodNums gens (dims.getD (q + 1) dfltDim).gens) := by ring
            _ = ((dims.getD q dfltDim).size : ℚ) *
                ((dims.getD (q + 1) dfltDim).size : ℚ) := by rw [hA, hs2]
        · rw [List.mem_map] at hm
          obtain ⟨m0, hm0, rfl⟩ := hm
          dsimp only
          have hA := hd2.masks_len m0 hm0
          push_cast
          calc (m0.mask.length : ℚ) * ↑m0.rep *
                (m0.tile * ↑(prodNums gens (dims.getD q dfltDim).gens))
              = ((m0.mask.length : ℚ) * ↑m0.rep * m0.tile) *
                ↑(prodNums gens (dims.getD q dfltDim).gens) := by ring
            _ = ((dims.getD (q + 1) dfltDim).size : ℚ) *
                ((dims.getD q dfltDim).size : ℚ) := by rw [hA, hs1]
            _ = ((dims.getD q dfltDim).size : ℚ) *
                ((dims.getD (q + 1) dfltDim).size : ℚ) := by ring
      · intro m hm
        unfold mergedDim at hm
        dsimp only at hm
        rcases List.mem_append.mp hm with hm | hm
        · rw [List.mem_map] at hm
          obtain ⟨m0, hm0, rfl⟩ := hm
          exact hd1.masks_half m0 hm0
        · rw [List.mem_map] at hm
          obtain ⟨m0, hm0, rfl⟩ := hm
          exact half_mul_nat _ _ (hd2.masks_half m0 hm0)
    · exact hdim d hd
  · show (((mergeDims gens dims q).map Dim.gens).flatten).Nodup
    rw [mergeDims_flatten gens dims q hq]
    exact hnd

/-- Appending a region mask to the dimension holding both axes preserves
the invariant: the new record's `len * repeat * tile` equals the
dimension's size. -/
theorem addRegionMask_inv {gens : List GenSpec} {dims : List Dim}
    {q i1 i2 : Nat} {a1 a2 : String} {e : ExcluderSpec}
    (hax : ((gens.map GenSpec.axes).flatten).Nodup)
    (hinv : DimsInv gens dims)
    (hq : q < dims.length)
    (hg1 : gens.findIdx? (fun g => decide (a1 ∈ g.axes)) = some i1)
    (hg2 : gens.findIdx? (fun g => decide (a2 ∈ g.axes)) = some i2)
    (ha1 : a1 ∈ (dims.getD q dfltDim).axes)
    (ha2 : a2 ∈ (dims.getD q dfltDim).axes) :
    DimsInv gens (addRegionMask gens dims q i1 i2 a1 a2 e) := by
  obtain ⟨hdim, hnd⟩ := hinv
  have hdinv : DimInv gens (dims.getD q dfltDim) := hdim _ (getD_mem dfltDim hq)
  have hi1lt : i1 < gens.length := findIdx?_some_lt hg1
  have hi2lt : i2 < gens.length := findIdx?_some_lt hg2
  have ha1i1 : a1 ∈ (gens.getD i1 dfltGen).axes :=
    of_decide_eq_true (findIdx?_some_prop dfltGen hg1)
  have ha2i2 : a2 ∈ (gens.getD i2 dfltGen).axes :=
    of_decide_eq_true (findIdx?_some_prop dfltGen hg2)
  have hi1mem : i1 ∈ (dims.getD q dfltDim).gens := by
    obtain ⟨i, hi, hai⟩ := (hdinv.axes_iff a1).mp ha1
    have heq : i = i1 :=
      axes_owner_unique hax (hdinv.gens_lt i hi) hi1lt hai ha1i1
    exact heq ▸ hi
  have hi2mem : i2 ∈ (dims.getD q dfltDim).gens := by
    obtain ⟨i, hi, hai⟩ := (hdinv.axes_iff a2).mp ha2
    have heq : i = i2 :=
      axes_owner_unique hax (hdinv.gens_lt i hi) hi2lt hai ha2i2
    exact heq ▸ hi
  have hdnodup : (dims.getD q dfltDim).gens.Nodup := by
    rw [List.nodup_flatten] at hnd
    exact hnd.1 _ (List.mem_map_of_mem Dim.gens (getD_mem dfltDim hq))
  have hiff : ∀ x ∈ (dims.getD q dfltDim).gens,
      ((fun i => decide (a1 ∈ (gens.getD i dfltGen).axes ∨
        a2 ∈ (gens.getD i dfltGen).axes)) x = true) ↔ (x = i1 ∨ x = i2) := by
    intro x hx
    rw [decide_eq_true_iff]
    constructor
    · rintro (h | h)
      · exact Or.inl (axes_owner_unique hax (hdinv.gens_lt x hx) hi1lt h ha1i1)
      · exact Or.inr (axes_owner_unique hax (hdinv.gens_lt x hx) hi2lt h ha2i2)
    · rintro (rfl | rfl)
      · exact Or.inl ha1i1
      · exact Or.inr ha2i2
  -- abbreviations
  set d := dims.getD q dfltDim with hd
  set F : Nat → ℚ := fun i => ((gens.getD i dfltGen).num : ℚ) with hF
  set t0 : ℚ := if d.alternate then 1 / 2 else 1 with ht0
  set tr := tileRepeatLoop gens a1 a2 d.gens false t0 1 with htr
  set mask := regionMask gens d.alternate i1 i2 a1 a2 e with hmask
  -- the key length computation for the new record
  have hsplit := list_prod_filter_split F
    (fun i => decide (a1 ∈ (gens.getD i dfltGen).axes ∨
      a2 ∈ (gens.getD i dfltGen).axes)) d.gens
  have hwhole : (d.gens.map F).prod = (d.size : ℚ) := by
    rw [← prodNums_cast, hdinv.size_eq]
  have hprod := tileRepeatLoop_prod gens a1 a2 d.gens false t0 1
  have hprodAx : ((d.gens.filter (fun i =>
      decide (a1 ∈ (gens.getD i dfltGen).axes ∨
        a2 ∈ (gens.getD i dfltGen).axes))).map F).prod =
      if i1 = i2 then F i1 else F i1 * F i2 := by
    by_cases hii : i1 = i2
    · rw [if_pos hii]
      refine filter_single_prod F _ hdnodup hi1mem ?_
      intro x hx
      rw [hiff x hx]
      subst hii
      simp
    · rw [if_neg hii]
      exact filter_pair_prod F _ hdnodup hi1mem hi2mem hii hiff
  have hmlen : (mask.length : ℚ) * tr.2 * tr.1 = (d.size : ℚ) := by
    have hml := regionMask_length gens d.alternate i1 i2 a1 a2 e hg1 hg2
    rw [← hmask] at hml
    rw [← hwhole, hsplit, hml]
    have harr : ((if d.alternate then 2 else 1) *
        (if i1 = i2 then (gens.getD i1 dfltGen).num
         else (gens.getD i1 dfltGen).num * (gens.getD i2 dfltGen).num) : ℕ) *
        (tr.2 : ℚ) * tr.1 =
        ((if d.alternate then 2 else 1) *
          (if i1 = i2 then (gens.getD i1 dfltGen).num
           else (gens.getD i1 dfltGen).num * (gens.getD i2 dfltGen).num) : ℕ) *
        (tr.1 * tr.2) := by ring
    rw [harr, hprod, hprodAx]
    cases halt : d.alternate <;> by_cases hii : i1 = i2 <;>
      rw [ht0, halt] <;> simp [hii, hF] <;> (try push_cast) <;> ring
  have hhalf : ∃ j : ℕ, tr.1 = (j : ℚ) ∨ tr.1 = (j : ℚ) + 1 / 2 := by
    obtain ⟨P, hP⟩ := tileRepeatLoop_tile gens a1 a2 d.gens false t0 1
    rw [← htr] at hP
    rw [hP]
    apply half_mul_nat
    cases halt : d.alternate
    · exact ⟨1, Or.inl (by rw [ht0, halt]; norm_num)⟩
    · exact ⟨0, Or.inr (by rw [ht0, halt]; norm_num)⟩
  -- assemble
  show DimsInv gens (dims.set q { d with masks := d.masks ++ [⟨tr.2, tr.1, mask⟩] })
  constructor
  · intro d' hd'
    rcases List.mem_or_eq_of_mem_set hd' with hd' | rfl
    · exact hdim d' hd'
    · refine ⟨hdinv.size_eq, hdinv.axes_iff, hdinv.gens_lt, ?_, ?_⟩
      · intro m hm
        rcases List.mem_append.mp hm with hm | hm
        · exact hdinv.masks_len m hm
        · rw [List.mem_singleton] at hm
          subst hm
          exact hmlen
      · intro m hm
        rcases List.mem_append.mp hm with hm | hm
        · exact hdinv.masks_half m hm
        · rw [List.mem_singleton] at hm
          subst hm
          exact hhalf
  · show (((dims.set q _).map Dim.gens).flatten).Nodup
    rw [map_gens_set dims q { d with masks := d.masks ++ [⟨tr.2, tr.1, mask⟩] } rfl]
    exact hnd

/-- One excluder step (after generator resolution) preserves the
invariant. -/
theorem processExcluderChecked_inv {gens : List GenSpec} {dims dims' : List Dim}
    {i1 i2 : Nat} {a1 a2 : String} {e : ExcluderSpec}
    (hax : ((gens.map GenSpec.axes).flatten).Nodup)
    (hinv : DimsInv gens dims)
    (hg1 : gens.findIdx? (fun g => decide (a1 ∈ g.axes)) = some i1)
    (hg2 : gens.findIdx? (fun g => decide (a2 ∈ g.axes)) = some i2)
    (h : processExcluderChecked gens dims i1 i2 a1 a2 e = .ok dims') :
    DimsInv gens dims' := by
  unfold processExcluderChecked at h
  cases hd1 : dims.findIdx? (fun d => decide (a1 ∈ d.axes)) with
  | none => rw [hd1] at h; simp at h
  | some p1 =>
    cases hd2 : dims.findIdx? (fun d => decide (a2 ∈ d.axes)) with
    | none => rw [hd1, hd2] at h; simp at h
    | some p2 =>
      rw [hd1, hd2] at h
      dsimp only at h
      split at h
      · simp at h
      · split at h
        · simp at h
        · rename_i halt hadj
          simp only [Except.ok.injEq] at h
          subst h
          have hp1lt : p1 < dims.length := findIdx?_some_lt hd1
          have hp2lt : p2 < dims.length := findIdx?_some_lt hd2
          have hap1 : a1 ∈ (dims.getD p1 dfltDim).axes :=
            of_decide_eq_true (findIdx?_some_prop dfltDim hd1)
          have hap2 : a2 ∈ (dims.getD p2 dfltDim).axes :=
            of_decide_eq_true (findIdx?_some_prop dfltDim hd2)
          by_cases hpp : p1 = p2
          · rw [if_pos hpp]
            have hq : min p1 p2 = p1 := by omega
            refine addRegionMask_inv hax ⟨hinv.1, hinv.2⟩ ?_ hg1 hg2 ?_ ?_
            · rw [hq]; exact hp1lt
            · rw [hq]; exact hap1
            · rw [hq, hpp]; exact hap2
          · rw [if_neg hpp]
            have hdiff : (p1 : Int) - p2 = 1 ∨ (p1 : Int) - p2 = -1 := by omega
            have hqlt : min p1 p2 + 1 < dims.length := by omega
            have hq2 : max p1 p2 = min p1 p2 + 1 := by omega
            have hinv2 : DimsInv gens (mergeDims gens dims (min p1 p2)) :=
              mergeDims_inv _ hqlt ⟨hinv.1, hinv.2⟩
            have hgetd : (mergeDims gens dims (min p1 p2)).getD (min p1 p2) dfltDim =
                mergedDim gens dims (min p1 p2) :=
              mergeDims_getD gens dims _ dfltDim (by omega)
            have hmem_ax : ∀ (a : String) (p : Nat), p = min p1 p2 ∨ p = min p1 p2 + 1 →
                a ∈ (dims.getD p dfltDim).axes →
                a ∈ (mergedDim gens dims (min p1 p2)).axes := by
              intro a p hp ha
              unfold mergedDim
              dsimp only
              rw [List.mem_append]
              rcases hp with rfl | rfl
              · exact Or.inl ha
              · exact Or.inr ha
            refine addRegionMask_inv hax hinv2 ?_ hg1 hg2 ?_ ?_
            · rw [mergeDims_length gens dims _ hqlt]; omega
            · rw [hgetd]
              exact hmem_ax a1 p1 (by omega) hap1
            · rw [hgetd]
              exact hmem_ax a2 p2 (by omega) hap2

/-- One full excluder step preserves the invariant. -/
theorem processExcluder_inv {gens : List GenSpec} {dims dims' : List Dim}
    {e : ExcluderSpec}
    (hax : ((gens.map GenSpec.axes).flatten).Nodup)
    (hinv : DimsInv gens dims)
    (h : processExcluder gens dims e = .ok dims') :
    DimsInv gens dims' := by
  unfold processExcluder at h
  cases hg1 : gens.findIdx? (fun g => decide (e.scannables.1 ∈ g.axes)) with
  | none => rw [hg1] at h; simp at h
  | some j1 =>
    cases hg2 : gens.findIdx? (fun g => decide (e.scannables.2 ∈ g.axes)) with
    | none => rw [hg1, hg2] at h; simp at h
    | some j2 =>
      rw [hg1, hg2] at h
      dsimp only at h
      split at h
      · simp at h
      · unfold canon at h
        split at h
        · exact processExcluderChecked_inv hax hinv hg2 hg1 h
        · exact processExcluderChecked_inv hax hinv hg1 hg2 h

/-- Processing every excluder preserves the invariant. -/
theorem processAll_inv {gens : List GenSpec} :
    ∀ {excluders : List ExcluderSpec} {dims dims' : List Dim},
    ((gens.map GenSpec.axes).flatten).Nodup →
    DimsInv gens dims →
    processAll gens dims excluders = .ok dims' →
    DimsInv gens dims' := by
  intro excluders
  induction excluders with
  | nil =>
      intro dims dims' _ hinv h
      simp only [processAll, Except.ok.injEq] at h
      exact h ▸ hinv
  | cons e rest ih =>
      intro dims dims' hax hinv h
      unfold processAll at h
      cases hpe : processExcluder gens dims e with
      | error s => rw [hpe] at h; simp [Bind.bind, Except.bind] at h
      | ok dimsM =>
          rw [hpe] at h
          simp only [Bind.bind, Except.bind] at h
          exact ih hax (processExcluder_inv hax hinv hpe) h

/-- The seeded dimensions satisfy the invariant. -/
theorem seedDims_inv (gens : List GenSpec) : DimsInv gens (seedDims gens) := by
  constructor
  · intro d hd
    unfold seedDims at hd
    rw [List.mem_map] at hd
    obtain ⟨i, hi, hdi⟩ := hd
    have hilt : i < gens.length := List.mem_range.mp hi
    subst hdi
    refine ⟨by simp [prodNums], ?_, ?_, by simp, by simp⟩
    · intro a
      constructor
      · intro ha; exact ⟨i, by simp, ha⟩
      · rintro ⟨j, hj, ha⟩
        simp only [List.mem_singleton] at hj
        subst hj
        exact ha
    · intro j hj
      simp only [List.mem_singleton] at hj
      subst hj
      exact hilt
  · show (((seedDims gens).map Dim.gens).flatten).Nodup
    unfold seedDims
    rw [List.map_map]
    show (((List.range gens.length).map (fun i => [i])).flatten).Nodup
    rw [map_singleton_flatten]
    exact List.nodup_range _

/-- Claim C2: after the excluders are processed, the combined mask of each
dimension is the conjunction (AND) of every recorded mask, each expanded by
repeating each element `repeat` times and tiling `tile` times — with the
half-integer `tile` case tiled by the integer part plus a half-length
prefix slice, reconstructing the length exactly (`tile` arithmetic is on
exact half-integers; no rounding is involved) — and the dimension's
valid-index list is exactly the positions where the combined mask is
true. -/
theorem c2_combined_mask (d : Dim)
    (hinv : ∀ m ∈ d.masks, (m.mask.length : ℚ) * m.rep * m.tile = (d.size : ℚ))
    (hhalf : ∀ m ∈ d.masks, ∃ j : ℕ, m.tile = (j : ℚ) ∨ m.tile = (j : ℚ) + 1 / 2) :
    (∀ m ∈ d.masks, (expandMask m).length = d.size) ∧
    (combinedMask d).length = d.size ∧
    (∀ p, p < d.size →
      (combinedMask d).getD p false =
        d.masks.all (fun m => (expandMask m).getD p false)) ∧
    ∀ idxs dd, finalizeDim d = .ok (idxs, dd) →
      idxs = (List.range d.size).filter
        (fun p => (combinedMask d).getD p false) := by
  have hboth : ∀ m ∈ d.masks,
      (m.mask.length : ℚ) * m.rep * m.tile = (d.size : ℚ) ∧
      (expandMask m).length = d.size :=
    fun m hm => ⟨hinv m hm, expandMask_length m d.size (hinv m hm) (hhalf m hm)⟩
  have hexp : ∀ m ∈ d.masks, (expandMask m).length = d.size :=
    fun m hm => (hboth m hm).2
  obtain ⟨_, h2⟩ := applyMasks_eq d.size d.masks (List.replicate d.size true)
    (by simp) hboth
  refine ⟨hexp, h2, ?_, ?_⟩
  · intro p hp
    unfold combinedMask
    rw [foldl_andMasks_getD d.size d.masks _ (by simp) hexp p hp,
      getD_replicate_true _ _ hp]
    simp
  · intro idxs dd hfd
    rw [finalizeDim_eq d hinv hhalf] at hfd
    split at hfd
    · simp at hfd
    · simp only [Except.ok.injEq, Prod.mk.injEq] at hfd
      rw [← hfd.1]
      unfold flatnonzero
      rw [show (combinedMask d).length = d.size from h2]

/-- Claim C2, witness: the merged alternating dimension `c2d` (mask of
length 12, `repeat = 1`, `tile = 1/2`, size 6) expands exactly to length
6. -/
theorem c2_combined_mask_witness :
    (expandMask
      ⟨1, 1 / 2,
       [true, true, true, false, true, true,
        true, true, false, true, true, true]⟩).length = c2d.size :=
  (c2_combined_mask c2d
    (by intro m hm; simp only [c2d] at hm ⊢; rw [List.mem_singleton] at hm
        subst hm; norm_num)
    (by intro m hm; simp only [c2d] at hm; rw [List.mem_singleton] at hm
        subst hm; exact ⟨0, Or.inr (by norm_num)⟩)).1 _ (by simp [c2d])

/-- Claim C5: the internal consistency assertion of line 192 is
unreachable for every configuration that passes the adjacency and
alternation checks (that is, whenever the excluder-processing loop
succeeds): dimension merging rescales the pre-existing masks' factors so
that every recorded mask satisfies `len(mask) * repeat * tile = size`,
and therefore `finalizeDim` never fails with the assertion message. -/
theorem c5_assert_unreachable (gens : List GenSpec)
    (excluders : List ExcluderSpec) (dims1 : List Dim)
    (hax : ((gens.map GenSpec.axes).flatten).Nodup)
    (h : processAll gens (seedDims gens) excluders = .ok dims1) :
    (∀ d ∈ dims1, ∀ m ∈ d.masks,
      (m.mask.length : ℚ) * m.rep * m.tile = (d.size : ℚ)) ∧
    (∀ d ∈ dims1, finalizeDim d ≠ .error assertMsg) := by
  have hinv : DimsInv gens dims1 := processAll_inv hax (seedDims_inv gens) h
  refine ⟨fun d hd => (hinv.1 d hd).masks_len, fun d hd => ?_⟩
  rw [finalizeDim_eq d ((hinv.1 d hd).masks_len) ((hinv.1 d hd).masks_half)]
  split
  · intro hc
    exact absurd (Except.error.inj hc) (by decide)
  · intro hc
    simp at hc

/-- Claim C5, witness: the alternating pair tied by `exE3` produces the
merged dimension `c2d`, whose finalization does not hit the assertion. -/
theorem c5_assert_unreachable_witness : finalizeDim c2d ≠ .error assertMsg :=
  (c5_assert_unreachable [exAo, exAi] [exE3] [c2d] (by decide) rfl).2 c2d
    (by simp)

/-- The mask-error characterization of the finalize loop: it fails with
the mask error exactly when some dimension's combined mask has no true
position, and succeeds when every dimension keeps at least one. -/
theorem finalizeAll_maskError (dims : List Dim)
    (hfin : ∀ d ∈ dims, finalizeDim d =
      if (flatnonzero (combinedMask d)).length = 0 then .error maskMsg
      else .ok (flatnonzero (combinedMask d), d)) :
    (finalizeAll dims = .error maskMsg ↔
      ∃ d ∈ dims, flatnonzero (combinedMask d) = []) ∧
    ((∀ d ∈ dims, flatnonzero (combinedMask d) ≠ []) →
      ∃ res, finalizeAll dims = .ok res) := by
  induction dims with
  | nil =>
      refine ⟨?_, fun _ => ⟨[], rfl⟩⟩
      simp [finalizeAll]
  | cons d rest ih =>
      obtain ⟨ih1, ih2⟩ := ih (fun d' hd' => hfin d' (List.mem_cons_of_mem _ hd'))
      have hfd := hfin d (List.mem_cons_self _ _)
      by_cases hz : (flatnonzero (combinedMask d)).length = 0
      · rw [if_pos hz] at hfd
        constructor
        · constructor
          · intro _
            exact ⟨d, List.mem_cons_self _ _, List.length_eq_zero.mp hz⟩
          · intro _
            unfold finalizeAll
            rw [hfd]
            rfl
        · intro hall
          exact absurd (List.length_eq_zero.mp hz)
            (hall d (List.mem_cons_self _ _))
      · rw [if_neg hz] at hfd
        constructor
        · constructor
          · intro hc
            unfold finalizeAll at hc
            rw [hfd] at hc
            simp only [Bind.bind, Except.bind] at hc
            cases hfa : finalizeAll rest with
            | error s =>
                rw [hfa] at hc
                cases hc
                obtain ⟨d', hd', hempty⟩ := ih1.mp hfa
                exact ⟨d', List.mem_cons_of_mem _ hd', hempty⟩
            | ok res =>
                rw [hfa] at hc
                simp at hc
          · rintro ⟨d', hd', hempty⟩
            rcases List.mem_cons.mp hd' with rfl | hd'
            · exact absurd (by rw [hempty]; rfl) hz
            · have : finalizeAll rest = .error maskMsg :=
                ih1.mpr ⟨d', hd', hempty⟩
              unfold finalizeAll
              rw [hfd]
              simp only [Bind.bind, Except.bind, this]
        · intro hall
          obtain ⟨res, hres⟩ := ih2
            (fun d' hd' => hall d' (List.mem_cons_of_mem _ hd'))
          refine ⟨(flatnonzero (combinedMask d), d) :: res, ?_⟩
          unfold finalizeAll
          rw [hfd]
          simp only [Bind.bind, Except.bind, hres]

/-- Claim C6: when the excluder-processing loop succeeds, `prepare()`
raises the mask error ("regions exclude entire scan") — aborting with no
usable prepared state — if and only if some dimension is left with zero
valid indices; if every dimension retains at least one valid index,
`prepare()` completes without this error. -/
theorem c6_mask_error (gens : List GenSpec) (excluders : List ExcluderSpec)
    (dims1 : List Dim)
    (hax : ((gens.map GenSpec.axes).flatten).Nodup)
    (h : processAll gens (seedDims gens) excluders = .ok dims1) :
    (prepareCore gens excluders = .error maskMsg ↔
      ∃ d ∈ dims1, flatnonzero (combinedMask d) = []) ∧
    ((∀ d ∈ dims1, flatnonzero (combinedMask d) ≠ []) →
      ∃ r, prepareCore gens excluders = .ok r) := by
  have hinv : DimsInv gens dims1 := processAll_inv hax (seedDims_inv gens) h
  have hfin : ∀ d ∈ dims1, finalizeDim d =
      if (flatnonzero (combinedMask d)).length = 0 then .error maskMsg
      else .ok (flatnonzero (combinedMask d), d) :=
    fun d hd => finalizeDim_eq d ((hinv.1 d hd).masks_len)
      ((hinv.1 d hd).masks_half)
  obtain ⟨hiff, hok⟩ := finalizeAll_maskError dims1 hfin
  constructor
  · constructor
    · intro hp
      unfold prepareCore at hp
      rw [h] at hp
      simp only [Bind.bind, Except.bind] at hp
      cases hfa : finalizeAll dims1 with
      | error s =>
          rw [hfa] at hp
          cases hp
          exact hiff.mp hfa
      | ok res =>
          rw [hfa] at hp
          simp at hp
    · intro hex
      have hmask : finalizeAll dims1 = .error maskMsg := hiff.mpr hex
      unfold prepareCore
      rw [h]
      simp only [Bind.bind, Except.bind, hmask]
  · intro hall
    obtain ⟨res, hres⟩ := hok hall
    unfold prepareCore
    rw [h]
    simp only [Bind.bind, Except.bind, hres]
    exact ⟨_, rfl⟩

/-- Claim C6, witness: the all-rejecting excluder `exNone` over
`[exA, exB]` leaves the merged dimension with zero valid indices, and
`prepare()` aborts with the mask error. -/
theorem c6_mask_error_witness :
    prepareCore [exA, exB] [exNone] = .error maskMsg :=
  (c6_mask_error [exA, exB] [exNone] [dimNone] (by decide) rfl).1.mpr
    ⟨dimNone, by simp, by rfl⟩

/-- Claim C10: a `CompoundGenerator` constructed with an empty generator
list, no excluders and no mutators has, after `prepare()`, total `num`
equal to `1`; `get_point(0)` returns a `Point` with empty positions,
lower, upper and indexes; and its iterator yields exactly that one empty
point. -/
theorem c10_empty_compound :
    CompoundGenerator.init ([] : List Constituent) [] [] =
      .ok ⟨[], [], [], 0, [], []⟩ ∧
    CGState.prepare ⟨[], [], [], 0, [], []⟩ = .ok ⟨[], [], [], 1, [], []⟩ ∧
    getPoint ⟨[], [], [], 1, [], []⟩ 0 = .ok emptyPoint ∧
    CGState.iterator ⟨[], [], [], 1, [], []⟩ = [emptyPoint] :=
  ⟨rfl, rfl, rfl, rfl⟩

/-- Claim C4 (amended): after `prepare()`, `get_point(n)` raises the range
error if and only if `n ≥ total_num`; every `n < total_num` — including
negative `n` — returns a `Point`.  (The source only checks `n >= self.num`;
Python's floor division and modulus make negative indices decode to valid
points.) -/
theorem c4_range_check (st : CGState) (n : Int) :
    (getPoint st n = .error rangeMsg ↔ (st.num : Int) ≤ n) ∧
    (n < (st.num : Int) → ∃ p, getPoint st n = .ok p) := by
  unfold getPoint
  by_cases h : n ≥ (st.num : Int)
  · constructor
    · simp [if_pos h]
      omega
    · intro hlt; omega
  · constructor
    · simp [if_neg h]
      omega
    · intro _
      rw [if_neg h]
      exact ⟨_, rfl⟩

/-- Claim C4, witness for the amended theorem. -/
theorem c4_range_check_witness : getPoint stA 2 = .error rangeMsg :=
  (c4_range_check stA 2).1.mpr (by decide)

/-- Claim C4, counterexample to the claim as stated: on the prepared
single-generator compound `stA` (two points), `get_point(-1)` does not
fail with a range error — it returns a `Point`. -/
theorem c4_negative_returns_point :
    CGState.prepare ⟨[exA], [], [], 0, [], []⟩ = .ok stA ∧
    getPoint stA (-1) = .ok ⟨[("a", 1)], [("a", 0)], [("a", 0)], [1]⟩ :=
  ⟨rfl, rfl⟩

/-- Claim C9: `prepare()` is idempotent.  The embedding's generators are
pure (repeated `produce_points()` calls reproduce the same points, the
claim's precondition), and `prepare()` recomputes every derived field from
the unchanged generators and excluders, so a second call yields the very
same state — hence the same total `num` and the same `get_point(n)` for
every `n`. -/
theorem c9_prepare_idempotent (st st1 st2 : CGState)
    (h1 : st.prepare = .ok st1) (h2 : st1.prepare = .ok st2) :
    st2 = st1 ∧ st2.num = st1.num ∧ ∀ n : Int, getPoint st2 n = getPoint st1 n := by
  unfold CGState.prepare at h1 h2
  cases hq : prepareCore st.generators st.excluders with
  | error e =>
      rw [hq] at h1
      exact absurd h1 (by simp)
  | ok r =>
      rw [hq] at h1
      simp only [Except.ok.injEq] at h1
      subst h1
      rw [hq] at h2
      simp only [Except.ok.injEq] at h2
      subst h2
      exact ⟨rfl, rfl, fun n => rfl⟩

/-- Claim C9, witness: preparing the one-generator compound twice is a
fixed point. -/
theorem c9_prepare_idempotent_witness :
    CGState.prepare ⟨[exA], [], [], 0, [], []⟩ = .ok stA ∧
    CGState.prepare stA = .ok stA ∧ stA.num = stA.num :=
  ⟨rfl, rfl,
    (c9_prepare_idempotent ⟨[exA], [], [], 0, [], []⟩ stA stA rfl rfl).2.1⟩

/-- Claim C7: processing an excluder fails with the adjacency error when
its two axes belong to generators that are not adjacent in nesting order,
fails with the alternate error when the two dimensions holding the
(canonicalized) axes have mismatched alternate flags, fails with the
adjacency error when those dimensions are not adjacent, and succeeds —
raising neither error — when the generators and dimensions are adjacent
and the alternate flags match. -/
theorem c7_excluder_adjacency_checks (gens : List GenSpec) (dims : List Dim)
    (e : ExcluderSpec) (j1 j2 p1 p2 : Nat)
    (hg1 : gens.findIdx? (fun g => decide (e.scannables.1 ∈ g.axes)) = some j1)
    (hg2 : gens.findIdx? (fun g => decide (e.scannables.2 ∈ g.axes)) = some j2)
    (hd1 : dims.findIdx? (fun d =>
      decide ((canon j1 j2 e.scannables.1 e.scannables.2).2.2.1 ∈ d.axes)) = some p1)
    (hd2 : dims.findIdx? (fun d =>
      decide ((canon j1 j2 e.scannables.1 e.scannables.2).2.2.2 ∈ d.axes)) = some p2) :
    (((j1 : Int) - j2 < -1 ∨ (j1 : Int) - j2 > 1) →
      processExcluder gens dims e = .error adjMsg) ∧
    (¬((j1 : Int) - j2 < -1 ∨ (j1 : Int) - j2 > 1) →
      (dims.getD p1 dfltDim).alternate ≠ (dims.getD p2 dfltDim).alternate →
      processExcluder gens dims e = .error altMsg) ∧
    (¬((j1 : Int) - j2 < -1 ∨ (j1 : Int) - j2 > 1) →
      (dims.getD p1 dfltDim).alternate = (dims.getD p2 dfltDim).alternate →
      ((p1 : Int) - p2 < -1 ∨ (p1 : Int) - p2 > 1) →
      processExcluder gens dims e = .error adjMsg) ∧
    (¬((j1 : Int) - j2 < -1 ∨ (j1 : Int) - j2 > 1) →
      (dims.getD p1 dfltDim).alternate = (dims.getD p2 dfltDim).alternate →
      ¬((p1 : Int) - p2 < -1 ∨ (p1 : Int) - p2 > 1) →
      ∃ dims', processExcluder gens dims e = .ok dims') := by
  unfold processExcluder
  rw [hg1, hg2]
  dsimp only
  refine ⟨?_, ?_, ?_, ?_⟩
  · intro hadj
    rw [if_pos hadj]
  · intro hnadj halt
    rw [if_neg hnadj]
    unfold processExcluderChecked
    simp only [hd1, hd2]
    rw [if_pos halt]
  · intro hnadj halt hdadj
    rw [if_neg hnadj]
    unfold processExcluderChecked
    simp only [hd1, hd2]
    rw [if_neg (by simp only [ne_eq, not_not]; exact halt), if_pos hdadj]
  · intro hnadj halt hndadj
    rw [if_neg hnadj]
    unfold processExcluderChecked
    simp only [hd1, hd2]
    rw [if_neg (by simp only [ne_eq, not_not]; exact halt), if_neg hndadj]
    exact ⟨_, rfl⟩

/-- Claim C7, witness: the excluder `exE` on the adjacent generators
`[exA, exB]` with matching (non-)alternation raises neither error. -/
theorem c7_excluder_adjacency_checks_witness :
    ∃ dims', processExcluder [exA, exB] (seedDims [exA, exB]) exE = .ok dims' :=
  (c7_excluder_adjacency_checks [exA, exB] (seedDims [exA, exB]) exE
    0 1 0 1 rfl rfl rfl rfl).2.2.2 (by decide) (by decide) (by decide)

/-- Claim C8 (amended): duplicate axis names across the nested generators,
and a `CompoundGenerator` given as a constituent generator, are rejected
at construction time (`__init__`), before `prepare()` is ever reachable;
`prepare()` itself never raises these two errors. -/
theorem c8_construction_validation (cs : List Constituent)
    (exc : List ExcluderSpec) (muts : List (List Point → List Point)) :
    ((∃ c ∈ cs, isCompound c = true) →
      CompoundGenerator.init cs exc muts = .error nestMsg) ∧
    ((∀ c ∈ cs, isCompound c = false) → ¬ ((cs.map leafAxes).flatten).Nodup →
      CompoundGenerator.init cs exc muts = .error dupMsg) ∧
    ((∀ c ∈ cs, isCompound c = false) → ((cs.map leafAxes).flatten).Nodup →
      ∃ st, CompoundGenerator.init cs exc muts = .ok st) ∧
    (∀ (gens : List GenSpec) (excluders : List ExcluderSpec) (s : String),
      prepareCore gens excluders = .error s → s ≠ nestMsg ∧ s ≠ dupMsg) := by
  refine ⟨?_, ?_, ?_, ?_⟩
  · intro h
    unfold CompoundGenerator.init
    rw [collectAxes_of_compound cs h]
    rfl
  · intro h hnd
    unfold CompoundGenerator.init
    rw [collectAxes_of_leaves cs h]
    simp only [Bind.bind, Except.bind]
    rw [if_neg hnd]
  · intro h hnd
    unfold CompoundGenerator.init
    rw [collectAxes_of_leaves cs h]
    simp only [Bind.bind, Except.bind]
    rw [if_pos hnd]
    exact ⟨_, rfl⟩
  · intro gens excluders s h
    rcases prepareCore_error h with h1 | h1 | h1 | h1 | h1 | h1 <;>
      subst h1 <;> exact ⟨by decide, by decide⟩

/-- Claim C8, witness for the amended theorem: a nested compound
constituent is rejected by the constructor itself. -/
theorem c8_construction_validation_witness :
    CompoundGenerator.init [.leaf exA, .compound ["z"]] [] [] =
      .error nestMsg :=
  (c8_construction_validation [.leaf exA, .compound ["z"]] [] []).1
    ⟨.compound ["z"], by simp, rfl⟩

/-- Claim C8, counterexample to the claim as stated: a duplicated axis
name is rejected with a configuration error already at construction time
(the constructor returns the error; no object exists on which `prepare()`
could later raise it). -/
theorem c8_duplicate_axes_fail_at_init :
    CompoundGenerator.init [.leaf exA, .leaf exA2] [] [] = .error dupMsg :=
  rfl

end SPG
